import Mathlib

/-!
Verification development for the neon dual-backend convolution and pooling
compute core.  The reference oracle (the window-indexing numpy computation in
neon/backends/tests/test_backend_conv_layer.py and
neon/backends/tests/test_backend_pool_layer.py) is embedded faithfully over ℚ:
flat 2-D arrays of the tests become functions from a flat row index and a
column index to ℚ, the python pixel_indices functions become list-producing
functions, the numpy dot/gather/scatter statements become explicit folds.
The backend kernels themselves (NervanaGPU and NervanaCPU, not part of the
sources) are modelled from the specification text where a claim needs them.
-/

namespace Neon

/-! ### Generic flat-index arithmetic -/

/-- Flat position of the tuple (a, b, c, d) in the row-major enumeration of a
quadruple nest with inner extents n₂, n₃, n₄. -/
def flat4 (n₂ n₃ n₄ a b c d : ℕ) : ℕ := ((a * n₂ + b) * n₃ + c) * n₄ + d

/-- Flat index of the element (c, z, y, x) of a (C, D, H, W)-shaped volume,
matching the index arithmetic ci + z*HW + y*W + x of the python
pixel_indices functions. -/
def flat3 (Dd Hh Ww c z y x : ℕ) : ℕ :=
  c * (Dd * Hh * Ww) + z * (Hh * Ww) + y * Ww + x

theorem addMul_lt {a b mm nn : ℕ} (ha : a < mm) (hb : b < nn) :
    a * nn + b < mm * nn := by
  have h1 : a * nn + b < (a + 1) * nn := by
    have : a * nn + b < a * nn + nn := by omega
    calc a * nn + b < a * nn + nn := this
      _ = (a + 1) * nn := by ring
  have h2 : (a + 1) * nn ≤ mm * nn := Nat.mul_le_mul_right nn ha
  omega

theorem addMul_inj {a a' b b' nn : ℕ} (hb : b < nn) (hb' : b' < nn)
    (h : a * nn + b = a' * nn + b') : a = a' ∧ b = b' := by
  have hnn : 0 < nn := by omega
  have ha : (a * nn + b) / nn = a := by
    rw [mul_comm a nn, Nat.mul_add_div hnn, Nat.div_eq_of_lt hb]
    omega
  have ha' : (a' * nn + b') / nn = a' := by
    rw [mul_comm a' nn, Nat.mul_add_div hnn, Nat.div_eq_of_lt hb']
    omega
  have haa : a = a' := by rw [← ha, ← ha', h]
  subst haa
  exact ⟨rfl, Nat.add_left_cancel h⟩

theorem exists_pair_digits {x mm nn : ℕ} (h : x < mm * nn) :
    ∃ a b, a < mm ∧ b < nn ∧ x = a * nn + b := by
  have hnn : 0 < nn := by
    rcases Nat.eq_zero_or_pos nn with h0 | h0
    · subst h0; simp at h
    · exact h0
  refine ⟨x / nn, x % nn, ?_, Nat.mod_lt x hnn, ?_⟩
  · exact (Nat.div_lt_iff_lt_mul hnn).2 h
  · rw [mul_comm]
    exact (Nat.div_add_mod x nn).symm

theorem exists_quad_digits {x n₁ n₂ n₃ n₄ : ℕ} (h : x < n₁ * (n₂ * (n₃ * n₄))) :
    ∃ a b c d, a < n₁ ∧ b < n₂ ∧ c < n₃ ∧ d < n₄ ∧ x = flat4 n₂ n₃ n₄ a b c d := by
  obtain ⟨a, r1, ha, hr1, hx⟩ := exists_pair_digits h
  obtain ⟨b, r2, hb, hr2, hr1e⟩ := exists_pair_digits hr1
  obtain ⟨c, d, hc, hd, hr2e⟩ := exists_pair_digits hr2
  refine ⟨a, b, c, d, ha, hb, hc, hd, ?_⟩
  rw [hx, hr1e, hr2e]
  unfold flat4
  ring

theorem flat3_lt {Cc Dd Hh Ww c z y x : ℕ}
    (hc : c < Cc) (hz : z < Dd) (hy : y < Hh) (hx : x < Ww) :
    flat3 Dd Hh Ww c z y x < Cc * (Dd * Hh * Ww) := by
  have hyx : y * Ww + x < Hh * Ww := addMul_lt hy hx
  have hzyx : z * (Hh * Ww) + (y * Ww + x) < Dd * (Hh * Ww) := addMul_lt hz hyx
  have hzyx' : z * (Hh * Ww) + (y * Ww + x) < Dd * Hh * Ww := by
    rw [mul_assoc]
    exact hzyx
  have hall : c * (Dd * Hh * Ww) + (z * (Hh * Ww) + (y * Ww + x)) <
      Cc * (Dd * Hh * Ww) := addMul_lt hc hzyx'
  calc flat3 Dd Hh Ww c z y x
      = c * (Dd * Hh * Ww) + (z * (Hh * Ww) + (y * Ww + x)) := by unfold flat3; ring
    _ < Cc * (Dd * Hh * Ww) := hall

theorem flat3_inj {Cc Dd Hh Ww c c' z z' y y' x x' : ℕ}
    (hc : c < Cc) (hz : z < Dd) (hy : y < Hh) (hx : x < Ww)
    (hc' : c' < Cc) (hz' : z' < Dd) (hy' : y' < Hh) (hx' : x' < Ww)
    (h : flat3 Dd Hh Ww c z y x = flat3 Dd Hh Ww c' z' y' x') :
    c = c' ∧ z = z' ∧ y = y' ∧ x = x' := by
  have hyx : y * Ww + x < Hh * Ww := addMul_lt hy hx
  have hyx' : y' * Ww + x' < Hh * Ww := addMul_lt hy' hx'
  have hzyx : z * (Hh * Ww) + (y * Ww + x) < Dd * (Hh * Ww) := addMul_lt hz hyx
  have hzyx' : z' * (Hh * Ww) + (y' * Ww + x') < Dd * (Hh * Ww) :=
    addMul_lt hz' hyx'
  have hre : flat3 Dd Hh Ww c z y x =
      c * (Dd * (Hh * Ww)) + (z * (Hh * Ww) + (y * Ww + x)) := by
    unfold flat3; ring
  have hre' : flat3 Dd Hh Ww c' z' y' x' =
      c' * (Dd * (Hh * Ww)) + (z' * (Hh * Ww) + (y' * Ww + x')) := by
    unfold flat3; ring
  have h0 := h
  rw [hre, hre'] at h0
  obtain ⟨hcc, hrest⟩ := addMul_inj hzyx hzyx' h0
  obtain ⟨hzz, hrest2⟩ := addMul_inj hyx hyx' hrest
  obtain ⟨hyy, hxx⟩ := addMul_inj hx hx' hrest2
  exact ⟨hcc, hzz, hyy, hxx⟩

/-! ### Quadruple-nested index lists

The python pixel_indices functions build their index list through four nested
for loops; quadList is that shape of list. -/

/-- Row-major quadruple nest of the values of g, the shape of the list built
by the four nested loops of pixel_indices. -/
def quadList (n₁ n₂ n₃ n₄ : ℕ) (g : ℕ → ℕ → ℕ → ℕ → ℕ) : List ℕ :=
  (List.range n₁).flatMap (fun a =>
    (List.range n₂).flatMap (fun b =>
      (List.range n₃).flatMap (fun c =>
        (List.range n₄).map (fun d => g a b c d))))

/-- Triple nest of position tuples, the shape of the window loops over
(m, p, q) in the conv reference. -/
def posList3 (n₁ n₂ n₃ : ℕ) : List (ℕ × ℕ × ℕ) :=
  (List.range n₁).flatMap (fun a =>
    (List.range n₂).flatMap (fun b =>
      (List.range n₃).map (fun c => (a, b, c))))

/-- Quadruple nest of position tuples, the shape of the window loops over
(k, m, p, q) in the pool reference. -/
def posList4 (n₁ n₂ n₃ n₄ : ℕ) : List (ℕ × ℕ × ℕ × ℕ) :=
  (List.range n₁).flatMap (fun a =>
    (List.range n₂).flatMap (fun b =>
      (List.range n₃).flatMap (fun c =>
        (List.range n₄).map (fun d => (a, b, c, d)))))

theorem length_flatMap_range {α : Type} (g : ℕ → List α) (L n : ℕ)
    (hL : ∀ a, a < n → (g a).length = L) :
    ((List.range n).flatMap g).length = n * L := by
  induction n with
  | zero => simp
  | succ n ih =>
    rw [List.range_succ, List.flatMap_append, List.length_append]
    rw [ih (fun a ha => hL a (by omega))]
    simp [hL n (by omega)]
    ring

theorem quadList_length (n₁ n₂ n₃ n₄ : ℕ) (g : ℕ → ℕ → ℕ → ℕ → ℕ) :
    (quadList n₁ n₂ n₃ n₄ g).length = n₁ * (n₂ * (n₃ * n₄)) := by
  unfold quadList
  apply length_flatMap_range
  intro a _
  apply length_flatMap_range
  intro b _
  apply length_flatMap_range
  intro c _
  simp

theorem getD_flatMap_range {α : Type} [Inhabited α] (g : ℕ → List α) (L n a j : ℕ)
    (hL : ∀ i, i < n → (g i).length = L) (ha : a < n) (hj : j < L) :
    ((List.range n).flatMap g).getD (a * L + j) default =
      (g a).getD j default := by
  induction n with
  | zero => omega
  | succ n ih =>
    rw [List.range_succ, List.flatMap_append]
    simp only [List.flatMap_cons, List.flatMap_nil, List.append_nil]
    have hlen : ((List.range n).flatMap g).length = n * L :=
      length_flatMap_range g L n (fun i hi => hL i (by omega))
    by_cases hcase : a < n
    · have hpos : a * L + j < n * L := by
        calc a * L + j < a * L + L := by omega
          _ = (a + 1) * L := by ring
          _ ≤ n * L := Nat.mul_le_mul_right L hcase
      rw [List.getD_append _ _ _ _ (by omega)]
      exact ih (fun i hi => hL i (by omega)) hcase
    · have haeq : a = n := by omega
      rw [haeq]
      rw [List.getD_append_right _ _ _ _ (by rw [hlen]; omega)]
      rw [hlen]
      have hsub : n * L + j - n * L = j := by omega
      rw [hsub]

theorem getD_map_range (h : ℕ → ℕ) (n d : ℕ) (hd : d < n) :
    ((List.range n).map h).getD d 0 = h d := by
  rw [List.getD_eq_getElem?_getD, List.getElem?_map, List.getElem?_range hd]
  simp

theorem quadList_getD {n₁ n₂ n₃ n₄ : ℕ} (g : ℕ → ℕ → ℕ → ℕ → ℕ)
    {a b c d : ℕ} (ha : a < n₁) (hb : b < n₂) (hc : c < n₃) (hd : d < n₄) :
    (quadList n₁ n₂ n₃ n₄ g).getD (flat4 n₂ n₃ n₄ a b c d) 0 = g a b c d := by
  have hL2 : ∀ i, i < n₁ →
      ((List.range n₂).flatMap (fun b =>
        (List.range n₃).flatMap (fun c =>
          (List.range n₄).map (fun d => g i b c d)))).length = n₂ * (n₃ * n₄) := by
    intro i _
    apply length_flatMap_range
    intro b _
    apply length_flatMap_range
    intro c _
    simp
  have hL3 : ∀ (i : ℕ), ∀ j, j < n₂ →
      ((List.range n₃).flatMap (fun c =>
        (List.range n₄).map (fun d => g i j c d))).length = n₃ * n₄ := by
    intro i j _
    apply length_flatMap_range
    intro c _
    simp
  have hflat : flat4 n₂ n₃ n₄ a b c d =
      a * (n₂ * (n₃ * n₄)) + (b * (n₃ * n₄) + (c * n₄ + d)) := by
    unfold flat4; ring
  have hinner : b * (n₃ * n₄) + (c * n₄ + d) < n₂ * (n₃ * n₄) := by
    have h1 : c * n₄ + d < n₃ * n₄ := addMul_lt hc hd
    exact addMul_lt hb h1
  unfold quadList
  rw [hflat]
  rw [show ((List.range n₁).flatMap (fun a =>
      (List.range n₂).flatMap (fun b =>
        (List.range n₃).flatMap (fun c =>
          (List.range n₄).map (fun d => g a b c d))))).getD
        (a * (n₂ * (n₃ * n₄)) + (b * (n₃ * n₄) + (c * n₄ + d))) 0 =
      ((List.range n₁).flatMap (fun a =>
      (List.range n₂).flatMap (fun b =>
        (List.range n₃).flatMap (fun c =>
          (List.range n₄).map (fun d => g a b c d))))).getD
        (a * (n₂ * (n₃ * n₄)) + (b * (n₃ * n₄) + (c * n₄ + d))) default from rfl]
  rw [getD_flatMap_range _ (n₂ * (n₃ * n₄)) n₁ a _ hL2 ha hinner]
  rw [getD_flatMap_range _ (n₃ * n₄) n₂ b _ (hL3 a) hb (addMul_lt hc hd)]
  rw [getD_flatMap_range _ n₄ n₃ c _ (fun i _ => by simp) hc hd]
  rw [show ((List.range n₄).map (fun d => g a b c d)).getD d default =
      ((List.range n₄).map (fun d => g a b c d)).getD d 0 from rfl]
  exact getD_map_range _ n₄ d hd

/-! ### Sum reindexing over ranges -/

theorem sum_range_add (f : ℕ → ℚ) (a b : ℕ) :
    ∑ x ∈ Finset.range (a + b), f x =
      (∑ x ∈ Finset.range a, f x) + ∑ x ∈ Finset.range b, f (a + x) := by
  induction b with
  | zero => simp
  | succ b ih =>
    rw [show a + (b + 1) = (a + b) + 1 from rfl, Finset.sum_range_succ,
      Finset.sum_range_succ, ih]
    ring

theorem sum_range_mul (f : ℕ → ℚ) (m n : ℕ) :
    ∑ x ∈ Finset.range (m * n), f x =
      ∑ i ∈ Finset.range m, ∑ j ∈ Finset.range n, f (i * n + j) := by
  induction m with
  | zero => simp
  | succ m ih =>
    rw [Finset.sum_range_succ, ← ih, show (m + 1) * n = m * n + n by ring,
      sum_range_add]

theorem sum_range_quad (f : ℕ → ℚ) (n₁ n₂ n₃ n₄ : ℕ) :
    ∑ x ∈ Finset.range (n₁ * (n₂ * (n₃ * n₄))), f x =
      ∑ a ∈ Finset.range n₁, ∑ b ∈ Finset.range n₂, ∑ c ∈ Finset.range n₃,
        ∑ d ∈ Finset.range n₄, f (flat4 n₂ n₃ n₄ a b c d) := by
  rw [sum_range_mul]
  apply Finset.sum_congr rfl
  intro a _
  rw [sum_range_mul]
  apply Finset.sum_congr rfl
  intro b _
  rw [sum_range_mul]
  apply Finset.sum_congr rfl
  intro c _
  apply Finset.sum_congr rfl
  intro d _
  unfold flat4
  ring_nf

theorem sum_map_range (h : ℕ → ℚ) (n : ℕ) :
    ((List.range n).map h).sum = ∑ a ∈ Finset.range n, h a := by
  induction n with
  | zero => simp
  | succ n ih =>
    rw [List.range_succ, List.map_append, List.sum_append, Finset.sum_range_succ, ih]
    simp

theorem sum_map_flatMap_range {α : Type} (f : α → ℚ) (g : ℕ → List α) (n : ℕ) :
    (((List.range n).flatMap g).map f).sum =
      ∑ a ∈ Finset.range n, ((g a).map f).sum := by
  induction n with
  | zero => simp
  | succ n ih =>
    rw [List.range_succ, List.flatMap_append, List.map_append, List.sum_append,
      Finset.sum_range_succ, ih]
    simp

/-! ### Positional dot product

dotFrom pairs the elements of an index list, positionally, with the rows of a
second array: it is the semantics of the numpy expression
dot(F.T, I[idx, :]) at one output entry, with a running row offset. -/

def dotFrom (Fc Ic : ℕ → ℚ) : ℕ → List ℕ → ℚ
  | _, [] => 0
  | a, i :: rest => Fc a * Ic i + dotFrom Fc Ic (a + 1) rest

theorem dotFrom_eq_sum (Fc Ic : ℕ → ℚ) (off : ℕ) (idx : List ℕ) :
    dotFrom Fc Ic off idx =
      ∑ a ∈ Finset.range idx.length, Fc (off + a) * Ic (idx.getD a 0) := by
  induction idx generalizing off with
  | nil => simp [dotFrom]
  | cons i rest ih =>
    have hsum : ∑ a ∈ Finset.range ((i :: rest).length),
          Fc (off + a) * Ic ((i :: rest).getD a 0)
        = Fc off * Ic i +
          ∑ a ∈ Finset.range rest.length, Fc (off + 1 + a) * Ic (rest.getD a 0) := by
      rw [show (i :: rest).length = rest.length + 1 from rfl, Finset.sum_range_succ']
      simp only [List.getD_cons_succ, List.getD_cons_zero, add_zero]
      have hterm : ∀ a ∈ Finset.range rest.length,
          Fc (off + (a + 1)) * Ic (rest.getD a 0) =
            Fc (off + 1 + a) * Ic (rest.getD a 0) := by
        intro a _
        have he : off + (a + 1) = off + 1 + a := by omega
        rw [he]
      rw [Finset.sum_congr rfl hterm]
      exact add_comm _ _
    simp only [dotFrom]
    rw [ih (off + 1), hsum]

/-! ### Sequential scatter-add

scatterAdd is the semantics of the numpy statement B[idx, :] += V at one
column: numpy gathers the addends from the old array B0 (advanced-indexing
assignment buffers its reads), adds V row by row, and stores the results back
in list order, a later duplicate index overwriting an earlier one. -/

def scatterAdd (B0 V : ℕ → ℚ) : ℕ → List ℕ → (ℕ → ℚ) → ℕ → ℚ
  | _, [], Bacc => Bacc
  | a, i :: rest, Bacc =>
      scatterAdd B0 V (a + 1) rest (Function.update Bacc i (B0 i + V a))

theorem scatterAdd_not_mem (B0 V : ℕ → ℚ) (a : ℕ) (idx : List ℕ)
    (Bacc : ℕ → ℚ) (i : ℕ) (h : i ∉ idx) :
    scatterAdd B0 V a idx Bacc i = Bacc i := by
  induction idx generalizing a Bacc with
  | nil => rfl
  | cons j rest ih =>
    have hij : i ≠ j := fun he => h (he ▸ List.mem_cons_self j rest)
    rw [show scatterAdd B0 V a (j :: rest) Bacc =
        scatterAdd B0 V (a + 1) rest (Function.update Bacc j (B0 j + V a)) from rfl]
    rw [ih (a + 1) _ (fun hm => h (List.mem_cons_of_mem j hm))]
    exact Function.update_noteq hij _ Bacc

theorem exists_getD_of_mem (l : List ℕ) (x : ℕ) (h : x ∈ l) :
    ∃ a, a < l.length ∧ l.getD a 0 = x := by
  obtain ⟨n, hn, he⟩ := List.mem_iff_getElem.1 h
  refine ⟨n, hn, ?_⟩
  rw [List.getD_eq_getElem?_getD, List.getElem?_eq_getElem hn]
  simpa using he

theorem scatterAdd_unique (B0 V : ℕ → ℚ) (idx : List ℕ) (i : ℕ) (a₀ : ℕ)
    (h₀ : a₀ < idx.length) (hget : idx.getD a₀ 0 = i)
    (huniq : ∀ b, b < idx.length → idx.getD b 0 = i → b = a₀) :
    ∀ (a : ℕ) (Bacc : ℕ → ℚ),
      scatterAdd B0 V a idx Bacc i = B0 i + V (a + a₀) := by
  induction idx generalizing a₀ with
  | nil => simp at h₀
  | cons j rest ih =>
    intro a Bacc
    rw [show scatterAdd B0 V a (j :: rest) Bacc =
        scatterAdd B0 V (a + 1) rest (Function.update Bacc j (B0 j + V a)) from rfl]
    rcases Nat.eq_zero_or_pos a₀ with h0 | hpos
    · subst h0
      have hji : j = i := by simpa using hget
      subst hji
      have hnotmem : j ∉ rest := by
        intro hmem
        obtain ⟨b, hb, hbget⟩ := exists_getD_of_mem rest j hmem
        have : b + 1 = 0 := huniq (b + 1) (by simpa using Nat.succ_lt_succ hb)
          (by simpa using hbget)
        omega
      rw [scatterAdd_not_mem B0 V (a + 1) rest _ j hnotmem]
      rw [Function.update_same]
      rw [show a + 0 = a from rfl]
    · obtain ⟨b₀, hb₀⟩ : ∃ b₀, a₀ = b₀ + 1 := ⟨a₀ - 1, by omega⟩
      subst hb₀
      have hji : j ≠ i := by
        intro he
        have : (0 : ℕ) = b₀ + 1 := huniq 0 (by simp) (by simpa using he)
        omega
      have hget' : rest.getD b₀ 0 = i := by simpa using hget
      have huniq' : ∀ b, b < rest.length → rest.getD b 0 = i → b = b₀ := by
        intro b hb hbget
        have : b + 1 = b₀ + 1 := huniq (b + 1) (by simpa using Nat.succ_lt_succ hb)
          (by simpa using hbget)
        omega
      rw [ih b₀ (by simpa using Nat.lt_of_succ_lt_succ h₀) hget' huniq' (a + 1) _]
      have harith : a + 1 + b₀ = a + (b₀ + 1) := by omega
      rw [harith]

/-! ### Maximum, argmax and mean of a gathered column

listMax is the semantics of numpy max over a nonempty gathered column,
listArgmax of numpy argmax (index of the first occurrence of the maximum),
listMean of numpy mean (sum divided by length). -/

def listMax : List ℚ → ℚ
  | [] => 0
  | x :: xs => xs.foldl max x

def listArgmax (l : List ℚ) : ℕ := l.indexOf (listMax l)

def listMean (l : List ℚ) : ℚ := l.sum / (l.length : ℚ)

theorem le_foldl_max_init (l : List ℚ) (init : ℚ) : init ≤ l.foldl max init := by
  induction l generalizing init with
  | nil => simp
  | cons j rest ih =>
    calc init ≤ max init j := le_max_left init j
      _ ≤ rest.foldl max (max init j) := ih (max init j)
      _ = (j :: rest).foldl max init := rfl

theorem le_foldl_max_mem (l : List ℚ) (init x : ℚ) (h : x ∈ l) :
    x ≤ l.foldl max init := by
  induction l generalizing init with
  | nil => simp at h
  | cons j rest ih =>
    rcases List.mem_cons.1 h with he | hm
    · subst he
      calc x ≤ max init x := le_max_right init x
        _ ≤ rest.foldl max (max init x) := le_foldl_max_init rest _
    · exact ih (max init j) hm

theorem foldl_max_choice (l : List ℚ) (init : ℚ) :
    l.foldl max init = init ∨ l.foldl max init ∈ l := by
  induction l generalizing init with
  | nil => left; rfl
  | cons j rest ih =>
    rcases ih (max init j) with hcase | hcase
    · rcases max_choice init j with hm | hm
      · left
        rw [show (j :: rest).foldl max init = rest.foldl max (max init j) from rfl,
          hcase, hm]
      · right
        rw [show (j :: rest).foldl max init = rest.foldl max (max init j) from rfl,
          hcase, hm]
        exact List.mem_cons_self j rest
    · right
      exact List.mem_cons_of_mem j hcase

theorem listMax_mem (l : List ℚ) (h : l ≠ []) : listMax l ∈ l := by
  match l with
  | [] => exact absurd rfl h
  | x :: xs =>
    rcases foldl_max_choice xs x with hcase | hcase
    · rw [show listMax (x :: xs) = xs.foldl max x from rfl, hcase]
      exact List.mem_cons_self x xs
    · exact List.mem_cons_of_mem x hcase

theorem le_listMax (l : List ℚ) (x : ℚ) (h : x ∈ l) : x ≤ listMax l := by
  match l with
  | [] => simp at h
  | y :: ys =>
    rcases List.mem_cons.1 h with he | hm
    · subst he
      exact le_foldl_max_init ys x
    · exact le_foldl_max_mem ys y x hm

theorem getD_mem (l : List ℕ) (b : ℕ) (hb : b < l.length) : l.getD b 0 ∈ l := by
  rw [List.getD_eq_getElem?_getD, List.getElem?_eq_getElem hb]
  simpa using List.getElem_mem hb

theorem getD_mem_rat (l : List ℚ) (b : ℕ) (hb : b < l.length) : l.getD b 0 ∈ l := by
  rw [List.getD_eq_getElem?_getD, List.getElem?_eq_getElem hb]
  simpa using List.getElem_mem hb

theorem listArgmax_lt (l : List ℚ) (h : l ≠ []) : listArgmax l < l.length :=
  List.indexOf_lt_length.2 (listMax_mem l h)

theorem getD_listArgmax (l : List ℚ) (h : l ≠ []) :
    l.getD (listArgmax l) 0 = listMax l := by
  have hlt : listArgmax l < l.length := listArgmax_lt l h
  rw [List.getD_eq_getElem?_getD, List.getElem?_eq_getElem hlt]
  have := List.indexOf_get (show l.indexOf (listMax l) < l.length from hlt)
  simpa [listArgmax, List.get_eq_getElem] using this

theorem getD_ne_of_lt_indexOf (l : List ℚ) (x : ℚ) (b : ℕ)
    (hb : b < l.indexOf x) : l.getD b 0 ≠ x := by
  induction l generalizing b with
  | nil => simp at hb
  | cons j rest ih =>
    by_cases hj : j = x
    · subst hj
      simp [List.indexOf_cons_self] at hb
    · rw [List.indexOf_cons_ne rest (by simpa using hj)] at hb
      match b with
      | 0 => simpa using hj
      | b + 1 =>
        rw [List.getD_cons_succ]
        exact ih b (by omega)

theorem listArgmax_first (l : List ℚ) (h : l ≠ []) (b : ℕ) (hb : b < listArgmax l) :
    l.getD b 0 < listMax l := by
  have hne : l.getD b 0 ≠ listMax l := getD_ne_of_lt_indexOf l (listMax l) b hb
  have hle : l.getD b 0 ≤ listMax l := by
    apply le_listMax
    apply getD_mem_rat
    have := listArgmax_lt l h
    omega
  exact lt_of_le_of_ne hle hne

/-! ### Pointwise folds over window lists -/

theorem foldl_update_apply {β : Type} [DecidableEq β] (f : β → ℕ → ℚ)
    (l : List β) (O0 : β → ℕ → ℚ) (p : β) :
    (l.foldl (fun O w => Function.update O w (f w)) O0) p =
      if p ∈ l then f p else O0 p := by
  induction l generalizing O0 with
  | nil => simp
  | cons w rest ih =>
    rw [List.foldl_cons, ih]
    by_cases hm : p ∈ rest
    · rw [if_pos hm, if_pos (List.mem_cons_of_mem w hm)]
    · rw [if_neg hm]
      by_cases he : p = w
      · subst he
        rw [Function.update_same, if_pos (List.mem_cons_self p rest)]
      · rw [Function.update_noteq he, if_neg (by simp [List.mem_cons, he, hm])]

theorem foldl_step_sum {γ : Type} (step : (ℕ → ℕ → ℚ) → γ → (ℕ → ℕ → ℚ))
    (contrib : γ → ℕ → ℕ → ℚ) (P : ℕ → Prop)
    (hstep : ∀ B w i n, P i → step B w i n = B i n + contrib w i n)
    (l : List γ) (B0 : ℕ → ℕ → ℚ) (i n : ℕ) (hi : P i) :
    (l.foldl step B0) i n = B0 i n + (l.map (fun w => contrib w i n)).sum := by
  induction l generalizing B0 with
  | nil => simp
  | cons w rest ih =>
    rw [List.foldl_cons, ih (step B0 w), hstep B0 w i n hi, List.map_cons,
      List.sum_cons]
    ring

theorem flat4_lt {n₁ n₂ n₃ n₄ a b c d : ℕ}
    (ha : a < n₁) (hb : b < n₂) (hc : c < n₃) (hd : d < n₄) :
    flat4 n₂ n₃ n₄ a b c d < n₁ * (n₂ * (n₃ * n₄)) := by
  have h1 : c * n₄ + d < n₃ * n₄ := addMul_lt hc hd
  have h2 : b * (n₃ * n₄) + (c * n₄ + d) < n₂ * (n₃ * n₄) := addMul_lt hb h1
  have h3 : a * (n₂ * (n₃ * n₄)) + (b * (n₃ * n₄) + (c * n₄ + d)) <
      n₁ * (n₂ * (n₃ * n₄)) := addMul_lt ha h2
  calc flat4 n₂ n₃ n₄ a b c d
      = a * (n₂ * (n₃ * n₄)) + (b * (n₃ * n₄) + (c * n₄ + d)) := by unfold flat4; ring
    _ < n₁ * (n₂ * (n₃ * n₄)) := h3

theorem scatterAdd_eq_indicator_sum (B0 V : ℕ → ℚ) (idx : List ℕ) (i : ℕ)
    (huniq : ∀ a b, a < idx.length → b < idx.length →
      idx.getD a 0 = i → idx.getD b 0 = i → a = b) :
    scatterAdd B0 V 0 idx B0 i =
      B0 i + ∑ a ∈ Finset.range idx.length, if idx.getD a 0 = i then V a else 0 := by
  by_cases hmem : i ∈ idx
  · obtain ⟨a₀, ha₀, hget⟩ := exists_getD_of_mem idx i hmem
    rw [scatterAdd_unique B0 V idx i a₀ ha₀ hget
      (fun b hb hbg => huniq b a₀ hb ha₀ hbg hget) 0 B0]
    congr 1
    rw [Finset.sum_eq_single_of_mem a₀ (Finset.mem_range.2 ha₀)]
    · rw [if_pos hget, zero_add]
    · intro b hb hne
      exact if_neg (fun hbg => hne (huniq b a₀ (Finset.mem_range.1 hb) ha₀ hbg hget))
  · rw [scatterAdd_not_mem B0 V 0 idx B0 i hmem]
    have hz : ∀ a ∈ Finset.range idx.length,
        (if idx.getD a 0 = i then V a else 0) = 0 := by
      intro a ha
      refine if_neg (fun hg => hmem ?_)
      rw [← hg]
      exact getD_mem idx a (Finset.mem_range.1 ha)
    rw [Finset.sum_eq_zero hz]
    ring

/-! ### Convolution layer: descriptor and embedded reference

ConvDesc carries the parameters of a conv_layer call; the derived output
dims and shape tuples and the backend kernels themselves are modelled from
the spec (the backend sources are not part of src).  The reference
computation of test_backend_conv_layer.py is embedded as fpropRef,
bpropRef, updateRef over flat 2-D arrays. -/

structure ConvDesc where
  N : ℕ
  C : ℕ
  K : ℕ
  D : ℕ
  H : ℕ
  W : ℕ
  T : ℕ
  R : ℕ
  S : ℕ
  pad_d : ℕ
  pad_h : ℕ
  pad_w : ℕ
  str_d : ℕ
  str_h : ℕ
  str_w : ℕ

/-- Modelled from the spec: the conv_layer descriptor derivation (the backend
code is not under src) computes M = floor((D + 2 pad_d - T) / str_d) + 1. -/
def ConvDesc.M (cv : ConvDesc) : ℕ := (cv.D + 2 * cv.pad_d - cv.T) / cv.str_d + 1

/-- Modelled from the spec: P = floor((H + 2 pad_h - R) / str_h) + 1. -/
def ConvDesc.P (cv : ConvDesc) : ℕ := (cv.H + 2 * cv.pad_h - cv.R) / cv.str_h + 1

/-- Modelled from the spec: Q = floor((W + 2 pad_w - S) / str_w) + 1. -/
def ConvDesc.Q (cv : ConvDesc) : ℕ := (cv.W + 2 * cv.pad_w - cv.S) / cv.str_w + 1

/-- Modelled from the spec: dimI = (C, D, H, W, N). -/
def ConvDesc.dimI (cv : ConvDesc) : ℕ × ℕ × ℕ × ℕ × ℕ :=
  (cv.C, cv.D, cv.H, cv.W, cv.N)

/-- Modelled from the spec: dimF = (C, T, R, S, K). -/
def ConvDesc.dimF (cv : ConvDesc) : ℕ × ℕ × ℕ × ℕ × ℕ :=
  (cv.C, cv.T, cv.R, cv.S, cv.K)

/-- Modelled from the spec: dimO = (K, M, P, Q, N). -/
def ConvDesc.dimO (cv : ConvDesc) : ℕ × ℕ × ℕ × ℕ × ℕ :=
  (cv.K, cv.M, cv.P, cv.Q, cv.N)

/-- Derived shape data a backend conv_layer call exposes. -/
structure ConvDerived where
  dimI : ℕ × ℕ × ℕ × ℕ × ℕ
  dimF : ℕ × ℕ × ℕ × ℕ × ℕ
  dimO : ℕ × ℕ × ℕ × ℕ × ℕ
  M : ℕ
  P : ℕ
  Q : ℕ
deriving DecidableEq

/-- Modelled from the spec: the accelerator backend conv_layer call (the
NervanaGPU source is not under src) derives its shape contract from the
descriptor parameters by the standard formulas. -/
def accelConvLayer (cv : ConvDesc) : ConvDerived :=
  ⟨cv.dimI, cv.dimF, cv.dimO, cv.M, cv.P, cv.Q⟩

/-- Modelled from the spec: the host backend conv_layer call (the NervanaCPU
source is not under src) derives its shape contract from the descriptor
parameters by the standard formulas. -/
def hostConvLayer (cv : ConvDesc) : ConvDerived :=
  ⟨cv.dimI, cv.dimF, cv.dimO, cv.M, cv.P, cv.Q⟩

/-- Predicate for a spatial tap (z, y, x) lying inside [0,D) x [0,H) x [0,W),
the conjunction zb and yb and bounds-check on x of pixel_indices. -/
def inBounds3 (Dd Hh Ww : ℕ) (z y x : ℤ) : Prop :=
  0 ≤ z ∧ z < (Dd : ℤ) ∧ 0 ≤ y ∧ y < (Hh : ℤ) ∧ 0 ≤ x ∧ x < (Ww : ℤ)

instance (Dd Hh Ww : ℕ) (z y x : ℤ) : Decidable (inBounds3 Dd Hh Ww z y x) := by
  unfold inBounds3
  exact inferInstance

/-- One entry of the conv pixel_indices list: the flat input index of the tap
(c, mt+t, pr+r, qs+s), or the sentinel C*D*H*W when the tap is out of
bounds. -/
def convTap (cv : ConvDesc) (mt pr qs : ℤ) (c t r s : ℕ) : ℕ :=
  if inBounds3 cv.D cv.H cv.W (mt + t) (pr + r) (qs + s) then
    flat3 cv.D cv.H cv.W c (mt + t).toNat (pr + r).toNat (qs + s).toNat
  else cv.C * (cv.D * cv.H * cv.W)

/-- Embedding of pixel_indices of test_backend_conv_layer.py: the taps of one
window, enumerated channel-first then depth, row, column. -/
def convPixelIndices (cv : ConvDesc) (mt pr qs : ℤ) : List ℕ :=
  quadList cv.C cv.T cv.R cv.S (convTap cv mt pr qs)

/-- Window base offset m * str_d - pad_d of the conv reference loop. -/
def mtOf (cv : ConvDesc) (m : ℕ) : ℤ := (m : ℤ) * cv.str_d - cv.pad_d

/-- Window base offset p * str_h - pad_h of the conv reference loop. -/
def prOf (cv : ConvDesc) (p : ℕ) : ℤ := (p : ℤ) * cv.str_h - cv.pad_h

/-- Window base offset q * str_w - pad_w of the conv reference loop. -/
def qsOf (cv : ConvDesc) (q : ℕ) : ℤ := (q : ℤ) * cv.str_w - cv.pad_w

/-- Embedded reference forward convolution: the entry (k, n) of the numpy
statement cpuO[:, m, p, q, :] = dot(cpuF.T, cpuI[idx, :]), with cpuI and cpuF
as flat 2-D arrays (row index, column index). -/
def fpropRef (cv : ConvDesc) (I F : ℕ → ℕ → ℚ) (k m p q n : ℕ) : ℚ :=
  dotFrom (fun a => F a k) (fun i => I i n) 0
    (convPixelIndices cv (mtOf cv m) (prOf cv p) (qsOf cv q))

/-- Embedded reference backward scatter of one window: the numpy statement
cpuB[idx, :] += dot(cpuF, cpuE[:, m, p, q, :]), one column at a time. -/
def bpropWindow (cv : ConvDesc) (F : ℕ → ℕ → ℚ) (E : ℕ → ℕ → ℕ → ℕ → ℕ → ℚ)
    (B : ℕ → ℕ → ℚ) (w : ℕ × ℕ × ℕ) : ℕ → ℕ → ℚ :=
  fun i n =>
    scatterAdd (fun i' => B i' n)
      (fun a => ∑ k ∈ Finset.range cv.K, F a k * E k w.1 w.2.1 w.2.2 n)
      0 (convPixelIndices cv (mtOf cv w.1) (prOf cv w.2.1) (qsOf cv w.2.2))
      (fun i' => B i' n) i

/-- Embedded reference backward convolution: the window loop of
test_backend_conv_layer.py accumulating into a freshly zeroed cpuB. -/
def bpropRef (cv : ConvDesc) (F : ℕ → ℕ → ℚ) (E : ℕ → ℕ → ℕ → ℕ → ℕ → ℚ) :
    ℕ → ℕ → ℚ :=
  (posList3 cv.M cv.P cv.Q).foldl (bpropWindow cv F E) (fun _ _ => 0)

/-- Embedded reference filter-gradient accumulation of one window: the numpy
statement cpuU += dot(cpuI[idx, :], cpuE[:, m, p, q, :].T). -/
def updateWindow (cv : ConvDesc) (I : ℕ → ℕ → ℚ) (E : ℕ → ℕ → ℕ → ℕ → ℕ → ℚ)
    (U : ℕ → ℕ → ℚ) (w : ℕ × ℕ × ℕ) : ℕ → ℕ → ℚ :=
  fun a k => U a k + ∑ n ∈ Finset.range cv.N,
    I ((convPixelIndices cv (mtOf cv w.1) (prOf cv w.2.1) (qsOf cv w.2.2)).getD a 0) n *
      E k w.1 w.2.1 w.2.2 n

/-- Embedded reference filter-gradient pass: the window loop accumulating into
a freshly zeroed cpuU. -/
def updateRef (cv : ConvDesc) (I : ℕ → ℕ → ℚ) (E : ℕ → ℕ → ℕ → ℕ → ℕ → ℚ) :
    ℕ → ℕ → ℚ :=
  (posList3 cv.M cv.P cv.Q).foldl (updateWindow cv I E) (fun _ _ => 0)

/-- Modelled from the spec: fprop_conv of the accelerator backend (the
NervanaGPU kernel source is not under src).  O[k,m,p,q,n] is the sum over
(c,t,r,s) of F[c,t,r,s,k] times the input element at the strided, padded
window position, an out-of-bounds tap contributing zero; the filter is
indexed by its flattened (c,t,r,s) row as in the collapsed dimF layout. -/
def accelFpropConv (cv : ConvDesc) (I F : ℕ → ℕ → ℚ) (k m p q n : ℕ) : ℚ :=
  ∑ c ∈ Finset.range cv.C, ∑ t ∈ Finset.range cv.T,
    ∑ r ∈ Finset.range cv.R, ∑ s ∈ Finset.range cv.S,
      F (flat4 cv.T cv.R cv.S c t r s) k *
        (if inBounds3 cv.D cv.H cv.W (mtOf cv m + t) (prOf cv p + r) (qsOf cv q + s) then
          I (flat3 cv.D cv.H cv.W c (mtOf cv m + t).toNat (prOf cv p + r).toNat
              (qsOf cv q + s).toNat) n
        else 0)

/-- Modelled from the spec: fprop_conv of the host backend (the NervanaCPU
kernel source is not under src), computing the same window-gather sum. -/
def hostFpropConv (cv : ConvDesc) (I F : ℕ → ℕ → ℚ) (k m p q n : ℕ) : ℚ :=
  ∑ c ∈ Finset.range cv.C, ∑ t ∈ Finset.range cv.T,
    ∑ r ∈ Finset.range cv.R, ∑ s ∈ Finset.range cv.S,
      F (flat4 cv.T cv.R cv.S c t r s) k *
        (if inBounds3 cv.D cv.H cv.W (mtOf cv m + t) (prOf cv p + r) (qsOf cv q + s) then
          I (flat3 cv.D cv.H cv.W c (mtOf cv m + t).toNat (prOf cv p + r).toNat
              (qsOf cv q + s).toNat) n
        else 0)

/-- Modelled from the spec: bprop_conv of the accelerator backend (source not
under src).  B[i, n] accumulates F[c,t,r,s,k] times E[k,m,p,q,n] over every
window tap whose in-bounds flat position is i; out-of-bounds scatter targets
are discarded. -/
def accelBpropConv (cv : ConvDesc) (F : ℕ → ℕ → ℚ) (E : ℕ → ℕ → ℕ → ℕ → ℕ → ℚ)
    (i n : ℕ) : ℚ :=
  ∑ m ∈ Finset.range cv.M, ∑ p ∈ Finset.range cv.P, ∑ q ∈ Finset.range cv.Q,
    ∑ c ∈ Finset.range cv.C, ∑ t ∈ Finset.range cv.T,
      ∑ r ∈ Finset.range cv.R, ∑ s ∈ Finset.range cv.S,
        if inBounds3 cv.D cv.H cv.W (mtOf cv m + t) (prOf cv p + r) (qsOf cv q + s) ∧
            flat3 cv.D cv.H cv.W c (mtOf cv m + t).toNat (prOf cv p + r).toNat
              (qsOf cv q + s).toNat = i then
          ∑ k ∈ Finset.range cv.K, F (flat4 cv.T cv.R cv.S c t r s) k * E k m p q n
        else 0

/-- Modelled from the spec: bprop_conv of the host backend (source not under
src), computing the same scatter-accumulated input gradient. -/
def hostBpropConv (cv : ConvDesc) (F : ℕ → ℕ → ℚ) (E : ℕ → ℕ → ℕ → ℕ → ℕ → ℚ)
    (i n : ℕ) : ℚ :=
  ∑ m ∈ Finset.range cv.M, ∑ p ∈ Finset.range cv.P, ∑ q ∈ Finset.range cv.Q,
    ∑ c ∈ Finset.range cv.C, ∑ t ∈ Finset.range cv.T,
      ∑ r ∈ Finset.range cv.R, ∑ s ∈ Finset.range cv.S,
        if inBounds3 cv.D cv.H cv.W (mtOf cv m + t) (prOf cv p + r) (qsOf cv q + s) ∧
            flat3 cv.D cv.H cv.W c (mtOf cv m + t).toNat (prOf cv p + r).toNat
              (qsOf cv q + s).toNat = i then
          ∑ k ∈ Finset.range cv.K, F (flat4 cv.T cv.R cv.S c t r s) k * E k m p q n
        else 0

/-- Modelled from the spec: update_conv of the accelerator backend (source not
under src).  U[c,t,r,s,k] is the sum over (m,p,q,n) of the window input tap
times E[k,m,p,q,n], an out-of-bounds tap contributing zero. -/
def accelUpdateConv (cv : ConvDesc) (I : ℕ → ℕ → ℚ) (E : ℕ → ℕ → ℕ → ℕ → ℕ → ℚ)
    (c t r s k : ℕ) : ℚ :=
  ∑ m ∈ Finset.range cv.M, ∑ p ∈ Finset.range cv.P, ∑ q ∈ Finset.range cv.Q,
    ∑ n ∈ Finset.range cv.N,
      (if inBounds3 cv.D cv.H cv.W (mtOf cv m + t) (prOf cv p + r) (qsOf cv q + s) then
        I (flat3 cv.D cv.H cv.W c (mtOf cv m + t).toNat (prOf cv p + r).toNat
            (qsOf cv q + s).toNat) n
      else 0) * E k m p q n

/-- Modelled from the spec: update_conv of the host backend (source not under
src), computing the same filter gradient. -/
def hostUpdateConv (cv : ConvDesc) (I : ℕ → ℕ → ℚ) (E : ℕ → ℕ → ℕ → ℕ → ℕ → ℚ)
    (c t r s k : ℕ) : ℚ :=
  ∑ m ∈ Finset.range cv.M, ∑ p ∈ Finset.range cv.P, ∑ q ∈ Finset.range cv.Q,
    ∑ n ∈ Finset.range cv.N,
      (if inBounds3 cv.D cv.H cv.W (mtOf cv m + t) (prOf cv p + r) (qsOf cv q + s) then
        I (flat3 cv.D cv.H cv.W c (mtOf cv m + t).toNat (prOf cv p + r).toNat
            (qsOf cv q + s).toNat) n
      else 0) * E k m p q n

theorem convPixelIndices_length (cv : ConvDesc) (mt pr qs : ℤ) :
    (convPixelIndices cv mt pr qs).length = cv.C * (cv.T * (cv.R * cv.S)) :=
  quadList_length cv.C cv.T cv.R cv.S (convTap cv mt pr qs)

theorem convPixelIndices_getD (cv : ConvDesc) (mt pr qs : ℤ)
    {c t r s : ℕ} (hc : c < cv.C) (ht : t < cv.T) (hr : r < cv.R) (hs : s < cv.S) :
    (convPixelIndices cv mt pr qs).getD (flat4 cv.T cv.R cv.S c t r s) 0 =
      convTap cv mt pr qs c t r s :=
  quadList_getD (convTap cv mt pr qs) hc ht hr hs

theorem convTap_eq_iff (cv : ConvDesc) (mt pr qs : ℤ) (c t r s i : ℕ)
    (hi : i < cv.C * (cv.D * cv.H * cv.W)) :
    convTap cv mt pr qs c t r s = i ↔
      (inBounds3 cv.D cv.H cv.W (mt + t) (pr + r) (qs + s) ∧
        flat3 cv.D cv.H cv.W c (mt + t).toNat (pr + r).toNat (qs + s).toNat = i) := by
  unfold convTap
  by_cases hb : inBounds3 cv.D cv.H cv.W (mt + t) (pr + r) (qs + s)
  · simp [hb]
  · simp only [if_neg hb]
    constructor
    · intro he
      omega
    · intro ⟨hb', _⟩
      exact absurd hb' hb

theorem conv_tap_bounds {Dd Hh Ww : ℕ} {z y x : ℤ}
    (hb : inBounds3 Dd Hh Ww z y x) :
    z.toNat < Dd ∧ y.toNat < Hh ∧ x.toNat < Ww := by
  obtain ⟨h1, h2, h3, h4, h5, h6⟩ := hb
  omega

theorem convTap_unique (cv : ConvDesc) (mt pr qs : ℤ) {i : ℕ}
    (hi : i < cv.C * (cv.D * cv.H * cv.W)) {c t r s c' t' r' s' : ℕ}
    (hc : c < cv.C) (hc' : c' < cv.C)
    (h1 : convTap cv mt pr qs c t r s = i)
    (h2 : convTap cv mt pr qs c' t' r' s' = i) :
    c = c' ∧ t = t' ∧ r = r' ∧ s = s' := by
  rw [convTap_eq_iff cv mt pr qs c t r s i hi] at h1
  rw [convTap_eq_iff cv mt pr qs c' t' r' s' i hi] at h2
  obtain ⟨hb1, hf1⟩ := h1
  obtain ⟨hb2, hf2⟩ := h2
  obtain ⟨hz1, hy1, hx1⟩ := conv_tap_bounds hb1
  obtain ⟨hz2, hy2, hx2⟩ := conv_tap_bounds hb2
  have hff : flat3 cv.D cv.H cv.W c (mt + t).toNat (pr + r).toNat (qs + s).toNat =
      flat3 cv.D cv.H cv.W c' (mt + t').toNat (pr + r').toNat (qs + s').toNat := by
    rw [hf1, hf2]
  obtain ⟨hcc, hzz, hyy, hxx⟩ :=
    flat3_inj hc hz1 hy1 hx1 hc' hz2 hy2 hx2 hff
  obtain ⟨hb1a, _, _, hb1b, _, hb1c⟩ := hb1
  obtain ⟨hb2a, _, _, hb2b, _, hb2c⟩ := hb2
  refine ⟨hcc, ?_, ?_, ?_⟩ <;> omega

theorem convPixelIndices_uniq (cv : ConvDesc) (mt pr qs : ℤ) {i : ℕ}
    (hi : i < cv.C * (cv.D * cv.H * cv.W)) :
    ∀ a b, a < (convPixelIndices cv mt pr qs).length →
      b < (convPixelIndices cv mt pr qs).length →
      (convPixelIndices cv mt pr qs).getD a 0 = i →
      (convPixelIndices cv mt pr qs).getD b 0 = i → a = b := by
  intro a b ha hb hga hgb
  rw [convPixelIndices_length] at ha hb
  obtain ⟨c1, t1, r1, s1, hc1, ht1, hr1, hs1, he1⟩ := exists_quad_digits ha
  obtain ⟨c2, t2, r2, s2, hc2, ht2, hr2, hs2, he2⟩ := exists_quad_digits hb
  rw [he1, convPixelIndices_getD cv mt pr qs hc1 ht1 hr1 hs1] at hga
  rw [he2, convPixelIndices_getD cv mt pr qs hc2 ht2 hr2 hs2] at hgb
  obtain ⟨hcc, htt, hrr, hss⟩ := convTap_unique cv mt pr qs hi hc1 hc2 hga hgb
  rw [he1, he2, hcc, htt, hrr, hss]

theorem fpropRef_eq_formula (cv : ConvDesc) (I F : ℕ → ℕ → ℚ)
    (hI : ∀ n', I (cv.C * (cv.D * cv.H * cv.W)) n' = 0) (k m p q n : ℕ) :
    fpropRef cv I F k m p q n = accelFpropConv cv I F k m p q n := by
  unfold fpropRef accelFpropConv
  rw [dotFrom_eq_sum, convPixelIndices_length, sum_range_quad]
  apply Finset.sum_congr rfl
  intro c hc
  apply Finset.sum_congr rfl
  intro t ht
  apply Finset.sum_congr rfl
  intro r hr
  apply Finset.sum_congr rfl
  intro s hs
  rw [convPixelIndices_getD cv _ _ _ (Finset.mem_range.1 hc) (Finset.mem_range.1 ht)
    (Finset.mem_range.1 hr) (Finset.mem_range.1 hs)]
  rw [zero_add]
  by_cases hb : inBounds3 cv.D cv.H cv.W (mtOf cv m + t) (prOf cv p + r) (qsOf cv q + s)
  · rw [if_pos hb]
    unfold convTap
    rw [if_pos hb]
  · rw [if_neg hb]
    unfold convTap
    rw [if_neg hb, hI n]

theorem bpropWindow_apply (cv : ConvDesc) (F : ℕ → ℕ → ℚ)
    (E : ℕ → ℕ → ℕ → ℕ → ℕ → ℚ) (B : ℕ → ℕ → ℚ) (w : ℕ × ℕ × ℕ) (i n : ℕ)
    (hi : i < cv.C * (cv.D * cv.H * cv.W)) :
    bpropWindow cv F E B w i n = B i n +
      ∑ c ∈ Finset.range cv.C, ∑ t ∈ Finset.range cv.T,
        ∑ r ∈ Finset.range cv.R, ∑ s ∈ Finset.range cv.S,
          if inBounds3 cv.D cv.H cv.W (mtOf cv w.1 + t) (prOf cv w.2.1 + r)
              (qsOf cv w.2.2 + s) ∧
              flat3 cv.D cv.H cv.W c (mtOf cv w.1 + t).toNat (prOf cv w.2.1 + r).toNat
                (qsOf cv w.2.2 + s).toNat = i then
            ∑ k ∈ Finset.range cv.K, F (flat4 cv.T cv.R cv.S c t r s) k *
              E k w.1 w.2.1 w.2.2 n
          else 0 := by
  unfold bpropWindow
  rw [scatterAdd_eq_indicator_sum _ _ _ i (convPixelIndices_uniq cv _ _ _ hi)]
  congr 1
  rw [convPixelIndices_length, sum_range_quad]
  apply Finset.sum_congr rfl
  intro c hc
  apply Finset.sum_congr rfl
  intro t ht
  apply Finset.sum_congr rfl
  intro r hr
  apply Finset.sum_congr rfl
  intro s hs
  rw [convPixelIndices_getD cv _ _ _ (Finset.mem_range.1 hc) (Finset.mem_range.1 ht)
    (Finset.mem_range.1 hr) (Finset.mem_range.1 hs)]
  exact if_congr (convTap_eq_iff cv _ _ _ c t r s i hi) rfl rfl

theorem sum_map_posList3 (f : ℕ × ℕ × ℕ → ℚ) (n₁ n₂ n₃ : ℕ) :
    ((posList3 n₁ n₂ n₃).map f).sum =
      ∑ a ∈ Finset.range n₁, ∑ b ∈ Finset.range n₂, ∑ c ∈ Finset.range n₃,
        f (a, b, c) := by
  unfold posList3
  rw [sum_map_flatMap_range]
  apply Finset.sum_congr rfl
  intro a _
  rw [sum_map_flatMap_range]
  apply Finset.sum_congr rfl
  intro b _
  rw [List.map_map]
  rw [sum_map_range]
  rfl

theorem bpropRef_eq_formula (cv : ConvDesc) (F : ℕ → ℕ → ℚ)
    (E : ℕ → ℕ → ℕ → ℕ → ℕ → ℚ) (i n : ℕ)
    (hi : i < cv.C * (cv.D * cv.H * cv.W)) :
    bpropRef cv F E i n = accelBpropConv cv F E i n := by
  unfold bpropRef accelBpropConv
  rw [foldl_step_sum (bpropWindow cv F E)
    (fun w i' n' =>
      ∑ c ∈ Finset.range cv.C, ∑ t ∈ Finset.range cv.T,
        ∑ r ∈ Finset.range cv.R, ∑ s ∈ Finset.range cv.S,
          if inBounds3 cv.D cv.H cv.W (mtOf cv w.1 + t) (prOf cv w.2.1 + r)
              (qsOf cv w.2.2 + s) ∧
              flat3 cv.D cv.H cv.W c (mtOf cv w.1 + t).toNat (prOf cv w.2.1 + r).toNat
                (qsOf cv w.2.2 + s).toNat = i' then
            ∑ k ∈ Finset.range cv.K, F (flat4 cv.T cv.R cv.S c t r s) k *
              E k w.1 w.2.1 w.2.2 n'
          else 0)
    (fun i' => i' < cv.C * (cv.D * cv.H * cv.W))
    (fun B w i' n' hi' => bpropWindow_apply cv F E B w i' n' hi')
    (posList3 cv.M cv.P cv.Q) (fun _ _ => 0) i n hi]
  rw [sum_map_posList3]
  simp only [zero_add]

theorem updateRef_eq_formula (cv : ConvDesc) (I : ℕ → ℕ → ℚ)
    (E : ℕ → ℕ → ℕ → ℕ → ℕ → ℚ)
    (hI : ∀ n', I (cv.C * (cv.D * cv.H * cv.W)) n' = 0)
    {c t r s : ℕ} (k : ℕ)
    (hc : c < cv.C) (ht : t < cv.T) (hr : r < cv.R) (hs : s < cv.S) :
    updateRef cv I E (flat4 cv.T cv.R cv.S c t r s) k =
      accelUpdateConv cv I E c t r s k := by
  unfold updateRef accelUpdateConv
  rw [foldl_step_sum (updateWindow cv I E)
    (fun w a' k' => ∑ n ∈ Finset.range cv.N,
      I ((convPixelIndices cv (mtOf cv w.1) (prOf cv w.2.1) (qsOf cv w.2.2)).getD a' 0) n *
        E k' w.1 w.2.1 w.2.2 n)
    (fun _ => True)
    (fun U w a' k' _ => rfl)
    (posList3 cv.M cv.P cv.Q) (fun _ _ => 0) (flat4 cv.T cv.R cv.S c t r s) k trivial]
  rw [sum_map_posList3]
  rw [zero_add]
  apply Finset.sum_congr rfl
  intro m _
  apply Finset.sum_congr rfl
  intro p _
  apply Finset.sum_congr rfl
  intro q _
  apply Finset.sum_congr rfl
  intro n _
  rw [convPixelIndices_getD cv _ _ _ hc ht hr hs]
  unfold convTap
  by_cases hb : inBounds3 cv.D cv.H cv.W (mtOf cv m + t) (prOf cv p + r) (qsOf cv q + s)
  · rw [if_pos hb, if_pos hb]
  · rw [if_neg hb, if_neg hb, hI n]

/-! ### Pooling layer: descriptor and embedded reference

PoolDesc carries the parameters of a pool_layer call; the derived output
dims are modelled from the spec (the backend sources are not under src).
The reference computation of test_backend_pool_layer.py is embedded as
poolFwdVal, poolBpropWindow and the per-iteration state transformer
poolStep; np.sqrt of the l2 branch, exercised by no claim, is abstracted as
a function parameter. -/

inductive PoolOp
  | pmax
  | pavg
  | pl2
deriving DecidableEq

structure PoolDesc where
  op : PoolOp
  N : ℕ
  C : ℕ
  D : ℕ
  H : ℕ
  W : ℕ
  J : ℕ
  T : ℕ
  R : ℕ
  S : ℕ
  pad_j : ℕ
  pad_d : ℕ
  pad_h : ℕ
  pad_w : ℕ
  str_j : ℕ
  str_d : ℕ
  str_h : ℕ
  str_w : ℕ

/-- Modelled from the spec: number of channel-window positions
K = floor((C + 2 pad_j - J) / str_j) + 1. -/
def PoolDesc.K (pd : PoolDesc) : ℕ := (pd.C + 2 * pd.pad_j - pd.J) / pd.str_j + 1

/-- Modelled from the spec: M = floor((D + 2 pad_d - T) / str_d) + 1. -/
def PoolDesc.M (pd : PoolDesc) : ℕ := (pd.D + 2 * pd.pad_d - pd.T) / pd.str_d + 1

/-- Modelled from the spec: P = floor((H + 2 pad_h - R) / str_h) + 1. -/
def PoolDesc.P (pd : PoolDesc) : ℕ := (pd.H + 2 * pd.pad_h - pd.R) / pd.str_h + 1

/-- Modelled from the spec: Q = floor((W + 2 pad_w - S) / str_w) + 1. -/
def PoolDesc.Q (pd : PoolDesc) : ℕ := (pd.W + 2 * pd.pad_w - pd.S) / pd.str_w + 1

/-- Window base offset k * str_j - pad_j of the pool reference loop. -/
def poolKj (pd : PoolDesc) (k : ℕ) : ℤ := (k : ℤ) * pd.str_j - pd.pad_j

/-- Window base offset m * str_d - pad_d of the pool reference loop. -/
def poolMt (pd : PoolDesc) (m : ℕ) : ℤ := (m : ℤ) * pd.str_d - pd.pad_d

/-- Window base offset p * str_h - pad_h of the pool reference loop. -/
def poolPr (pd : PoolDesc) (p : ℕ) : ℤ := (p : ℤ) * pd.str_h - pd.pad_h

/-- Window base offset q * str_w - pad_w of the pool reference loop. -/
def poolQs (pd : PoolDesc) (q : ℕ) : ℤ := (q : ℤ) * pd.str_w - pd.pad_w

/-- Predicate for a pool tap lying inside bounds: the conjunction cb and zb
and yb and the x bounds-check of the pool pixel_indices. -/
def poolInB (pd : PoolDesc) (kj mt pr qs : ℤ) (j t r s : ℕ) : Prop :=
  0 ≤ kj + j ∧ kj + j < (pd.C : ℤ) ∧
    inBounds3 pd.D pd.H pd.W (mt + t) (pr + r) (qs + s)

instance (pd : PoolDesc) (kj mt pr qs : ℤ) (j t r s : ℕ) :
    Decidable (poolInB pd kj mt pr qs j t r s) := by
  unfold poolInB
  exact inferInstance

/-- One entry of the pool pixel_indices list: the flat input index of the tap
(kj+j, mt+t, pr+r, qs+s), or the sentinel C*D*H*W when out of bounds. -/
def poolTap (pd : PoolDesc) (kj mt pr qs : ℤ) (j t r s : ℕ) : ℕ :=
  if poolInB pd kj mt pr qs j t r s then
    flat3 pd.D pd.H pd.W (kj + j).toNat (mt + t).toNat (pr + r).toNat (qs + s).toNat
  else pd.C * (pd.D * pd.H * pd.W)

/-- Embedding of pixel_indices of test_backend_pool_layer.py: the taps of one
window, enumerated channel-window-first then depth, row, column. -/
def poolPixelIndices (pd : PoolDesc) (kj mt pr qs : ℤ) : List ℕ :=
  quadList pd.J pd.T pd.R pd.S (poolTap pd kj mt pr qs)

/-- Gathered column of window values cpuI[idx, n] at window w = (k,m,p,q). -/
def poolWindowVals (pd : PoolDesc) (I : ℕ → ℕ → ℚ) (w : ℕ × ℕ × ℕ × ℕ) (n : ℕ) :
    List ℚ :=
  (poolPixelIndices pd (poolKj pd w.1) (poolMt pd w.2.1) (poolPr pd w.2.2.1)
    (poolQs pd w.2.2.2)).map (fun i => I i n)

/-- Embedded reference pool forward value of one window and batch column:
np.max, np.mean or np.sqrt of sum of squares of the gathered column,
according to the pool op. -/
def poolFwdVal (pd : PoolDesc) (sq : ℚ → ℚ) (I : ℕ → ℕ → ℚ)
    (w : ℕ × ℕ × ℕ × ℕ) (n : ℕ) : ℚ :=
  match pd.op with
  | PoolOp.pmax => listMax (poolWindowVals pd I w n)
  | PoolOp.pavg => listMean (poolWindowVals pd I w n)
  | PoolOp.pl2 => sq ((poolWindowVals pd I w n).map (fun v => v ^ 2)).sum

/-- Embedded reference pool backward scatter of one window: for max, the
single statement cpuB[idx[argmax], n] += cpuE[k,m,p,q,n]; for avg, the
statement cpuB[idx, :] += cpuE[k,m,p,q,:] * (1/len(idx)); l2 has no backward
branch in the reference. -/
def poolBpropWindow (pd : PoolDesc) (I : ℕ → ℕ → ℚ) (E : ℕ → ℕ → ℕ → ℕ → ℕ → ℚ)
    (B : ℕ → ℕ → ℚ) (w : ℕ × ℕ × ℕ × ℕ) : ℕ → ℕ → ℚ :=
  fun i n =>
    match pd.op with
    | PoolOp.pmax =>
        if i = (poolPixelIndices pd (poolKj pd w.1) (poolMt pd w.2.1)
            (poolPr pd w.2.2.1) (poolQs pd w.2.2.2)).getD
              (listArgmax (poolWindowVals pd I w n)) 0 then
          B i n + E w.1 w.2.1 w.2.2.1 w.2.2.2 n
        else B i n
    | PoolOp.pavg =>
        scatterAdd (fun i' => B i' n)
          (fun _ => E w.1 w.2.1 w.2.2.1 w.2.2.2 n *
            (1 / ((poolPixelIndices pd (poolKj pd w.1) (poolMt pd w.2.1)
              (poolPr pd w.2.2.1) (poolQs pd w.2.2.2)).length : ℚ)))
          0 (poolPixelIndices pd (poolKj pd w.1) (poolMt pd w.2.1)
            (poolPr pd w.2.2.1) (poolQs pd w.2.2.2))
          (fun i' => B i' n) i
    | PoolOp.pl2 => B i n

/-- State of one run_numpy_pool iteration: the output array and the
gradient accumulation array. -/
@[ext]
structure PoolState where
  O : ℕ × ℕ × ℕ × ℕ → ℕ → ℚ
  B : ℕ → ℕ → ℚ

/-- Embedded body of one iteration of the repeat loop of run_numpy_pool:
cpuB is re-filled with zero and re-scattered over all windows, cpuO is
re-assigned at every window position. -/
def poolStep (pd : PoolDesc) (sq : ℚ → ℚ) (I : ℕ → ℕ → ℚ)
    (E : ℕ → ℕ → ℕ → ℕ → ℕ → ℚ) (st : PoolState) : PoolState :=
  ⟨(posList4 pd.K pd.M pd.P pd.Q).foldl
      (fun O w => Function.update O w (fun n => poolFwdVal pd sq I w n)) st.O,
    (posList4 pd.K pd.M pd.P pd.Q).foldl (poolBpropWindow pd I E) (fun _ _ => 0)⟩

theorem poolPixelIndices_length (pd : PoolDesc) (kj mt pr qs : ℤ) :
    (poolPixelIndices pd kj mt pr qs).length = pd.J * (pd.T * (pd.R * pd.S)) :=
  quadList_length pd.J pd.T pd.R pd.S (poolTap pd kj mt pr qs)

theorem poolPixelIndices_getD (pd : PoolDesc) (kj mt pr qs : ℤ)
    {j t r s : ℕ} (hj : j < pd.J) (ht : t < pd.T) (hr : r < pd.R) (hs : s < pd.S) :
    (poolPixelIndices pd kj mt pr qs).getD (flat4 pd.T pd.R pd.S j t r s) 0 =
      poolTap pd kj mt pr qs j t r s :=
  quadList_getD (poolTap pd kj mt pr qs) hj ht hr hs

theorem poolTap_eq_iff (pd : PoolDesc) (kj mt pr qs : ℤ) (j t r s i : ℕ)
    (hi : i < pd.C * (pd.D * pd.H * pd.W)) :
    poolTap pd kj mt pr qs j t r s = i ↔
      (poolInB pd kj mt pr qs j t r s ∧
        flat3 pd.D pd.H pd.W (kj + j).toNat (mt + t).toNat (pr + r).toNat
          (qs + s).toNat = i) := by
  unfold poolTap
  by_cases hb : poolInB pd kj mt pr qs j t r s
  · simp [hb]
  · simp only [if_neg hb]
    constructor
    · intro he
      omega
    · intro ⟨hb', _⟩
      exact absurd hb' hb

theorem poolTap_bounds (pd : PoolDesc) {kj mt pr qs : ℤ} {j t r s : ℕ}
    (hb : poolInB pd kj mt pr qs j t r s) :
    (kj + j).toNat < pd.C ∧ (mt + t).toNat < pd.D ∧ (pr + r).toNat < pd.H ∧
      (qs + s).toNat < pd.W := by
  obtain ⟨h1, h2, h3, h4, h5, h6, h7, h8⟩ := hb
  omega

theorem poolTap_unique (pd : PoolDesc) (kj mt pr qs : ℤ) {i : ℕ}
    (hi : i < pd.C * (pd.D * pd.H * pd.W)) {j t r s j' t' r' s' : ℕ}
    (h1 : poolTap pd kj mt pr qs j t r s = i)
    (h2 : poolTap pd kj mt pr qs j' t' r' s' = i) :
    j = j' ∧ t = t' ∧ r = r' ∧ s = s' := by
  rw [poolTap_eq_iff pd kj mt pr qs j t r s i hi] at h1
  rw [poolTap_eq_iff pd kj mt pr qs j' t' r' s' i hi] at h2
  obtain ⟨hb1, hf1⟩ := h1
  obtain ⟨hb2, hf2⟩ := h2
  obtain ⟨hcz1, hz1, hy1, hx1⟩ := poolTap_bounds pd hb1
  obtain ⟨hcz2, hz2, hy2, hx2⟩ := poolTap_bounds pd hb2
  have hff : flat3 pd.D pd.H pd.W (kj + j).toNat (mt + t).toNat (pr + r).toNat
      (qs + s).toNat =
      flat3 pd.D pd.H pd.W (kj + j').toNat (mt + t').toNat (pr + r').toNat
        (qs + s').toNat := by
    rw [hf1, hf2]
  obtain ⟨hcc, hzz, hyy, hxx⟩ :=
    flat3_inj hcz1 hz1 hy1 hx1 hcz2 hz2 hy2 hx2 hff
  obtain ⟨ha1, _, hb1'⟩ := hb1
  obtain ⟨ha2, _, hb2'⟩ := hb2
  obtain ⟨hi1, _, hi3, _, hi5, _⟩ := hb1'
  obtain ⟨hj1, _, hj3, _, hj5, _⟩ := hb2'
  refine ⟨?_, ?_, ?_, ?_⟩ <;> omega

theorem poolPixelIndices_uniq (pd : PoolDesc) (kj mt pr qs : ℤ) {i : ℕ}
    (hi : i < pd.C * (pd.D * pd.H * pd.W)) :
    ∀ a b, a < (poolPixelIndices pd kj mt pr qs).length →
      b < (poolPixelIndices pd kj mt pr qs).length →
      (poolPixelIndices pd kj mt pr qs).getD a 0 = i →
      (poolPixelIndices pd kj mt pr qs).getD b 0 = i → a = b := by
  intro a b ha hb hga hgb
  rw [poolPixelIndices_length] at ha hb
  obtain ⟨j1, t1, r1, s1, hj1, ht1, hr1, hs1, he1⟩ := exists_quad_digits ha
  obtain ⟨j2, t2, r2, s2, hj2, ht2, hr2, hs2, he2⟩ := exists_quad_digits hb
  rw [he1, poolPixelIndices_getD pd kj mt pr qs hj1 ht1 hr1 hs1] at hga
  rw [he2, poolPixelIndices_getD pd kj mt pr qs hj2 ht2 hr2 hs2] at hgb
  obtain ⟨hjj, htt, hrr, hss⟩ := poolTap_unique pd kj mt pr qs hi hga hgb
  rw [he1, he2, hjj, htt, hrr, hss]

theorem mem_poolPixelIndices_iff (pd : PoolDesc) (kj mt pr qs : ℤ) (i : ℕ)
    (hi : i < pd.C * (pd.D * pd.H * pd.W)) :
    i ∈ poolPixelIndices pd kj mt pr qs ↔
      ∃ j t r s, j < pd.J ∧ t < pd.T ∧ r < pd.R ∧ s < pd.S ∧
        poolInB pd kj mt pr qs j t r s ∧
        flat3 pd.D pd.H pd.W (kj + j).toNat (mt + t).toNat (pr + r).toNat
          (qs + s).toNat = i := by
  constructor
  · intro hmem
    obtain ⟨a, ha, hget⟩ := exists_getD_of_mem _ i hmem
    rw [poolPixelIndices_length] at ha
    obtain ⟨j, t, r, s, hj, ht, hr, hs, he⟩ := exists_quad_digits ha
    rw [he, poolPixelIndices_getD pd kj mt pr qs hj ht hr hs,
      poolTap_eq_iff pd kj mt pr qs j t r s i hi] at hget
    exact ⟨j, t, r, s, hj, ht, hr, hs, hget.1, hget.2⟩
  · intro ⟨j, t, r, s, hj, ht, hr, hs, hb, hf⟩
    have hget : (poolPixelIndices pd kj mt pr qs).getD (flat4 pd.T pd.R pd.S j t r s) 0 = i := by
      rw [poolPixelIndices_getD pd kj mt pr qs hj ht hr hs,
        poolTap_eq_iff pd kj mt pr qs j t r s i hi]
      exact ⟨hb, hf⟩
    rw [← hget]
    apply getD_mem
    rw [poolPixelIndices_length]
    exact flat4_lt hj ht hr hs

theorem sum_map_quadList (f : ℕ → ℚ) (n₁ n₂ n₃ n₄ : ℕ)
    (g : ℕ → ℕ → ℕ → ℕ → ℕ) :
    ((quadList n₁ n₂ n₃ n₄ g).map f).sum =
      ∑ a ∈ Finset.range n₁, ∑ b ∈ Finset.range n₂, ∑ c ∈ Finset.range n₃,
        ∑ d ∈ Finset.range n₄, f (g a b c d) := by
  unfold quadList
  rw [sum_map_flatMap_range]
  apply Finset.sum_congr rfl
  intro a _
  rw [sum_map_flatMap_range]
  apply Finset.sum_congr rfl
  intro b _
  rw [sum_map_flatMap_range]
  apply Finset.sum_congr rfl
  intro c _
  rw [List.map_map, sum_map_range]
  rfl

theorem scatterAdd_const (B0 : ℕ → ℚ) (v : ℚ) (i : ℕ) :
    ∀ (idx : List ℕ) (a : ℕ) (Bacc : ℕ → ℚ),
      scatterAdd B0 (fun _ => v) a idx Bacc i =
        if i ∈ idx then B0 i + v else Bacc i := by
  intro idx
  induction idx with
  | nil => intro a Bacc; simp [scatterAdd]
  | cons j rest ih =>
    intro a Bacc
    rw [show scatterAdd B0 (fun _ => v) a (j :: rest) Bacc =
        scatterAdd B0 (fun _ => v) (a + 1) rest
          (Function.update Bacc j (B0 j + v)) from rfl]
    rw [ih (a + 1) _]
    by_cases hm : i ∈ rest
    · rw [if_pos hm, if_pos (List.mem_cons_of_mem j hm)]
    · rw [if_neg hm]
      by_cases he : i = j
      · subst he
        rw [Function.update_same, if_pos (List.mem_cons_self i rest)]
      · rw [Function.update_noteq he, if_neg (by simp [List.mem_cons, he, hm])]

theorem poolStep_O_apply (pd : PoolDesc) (sq : ℚ → ℚ) (I : ℕ → ℕ → ℚ)
    (E : ℕ → ℕ → ℕ → ℕ → ℕ → ℚ) (st : PoolState) (w : ℕ × ℕ × ℕ × ℕ) :
    (poolStep pd sq I E st).O w =
      if w ∈ posList4 pd.K pd.M pd.P pd.Q then (fun n => poolFwdVal pd sq I w n)
      else st.O w := by
  have h := foldl_update_apply (fun w n => poolFwdVal pd sq I w n)
    (posList4 pd.K pd.M pd.P pd.Q) st.O w
  by_cases hm : w ∈ posList4 pd.K pd.M pd.P pd.Q
  · rw [if_pos hm] at h
    rw [if_pos hm]
    exact h
  · rw [if_neg hm] at h
    rw [if_neg hm]
    exact h

theorem poolStep_idem (pd : PoolDesc) (sq : ℚ → ℚ) (I : ℕ → ℕ → ℚ)
    (E : ℕ → ℕ → ℕ → ℕ → ℕ → ℚ) (st : PoolState) :
    poolStep pd sq I E (poolStep pd sq I E st) = poolStep pd sq I E st := by
  have hB : (poolStep pd sq I E (poolStep pd sq I E st)).B =
      (poolStep pd sq I E st).B := rfl
  have hO : (poolStep pd sq I E (poolStep pd sq I E st)).O =
      (poolStep pd sq I E st).O := by
    funext w
    rw [poolStep_O_apply, poolStep_O_apply]
    by_cases hm : w ∈ posList4 pd.K pd.M pd.P pd.Q
    · rw [if_pos hm, if_pos hm]
    · rw [if_neg hm]
  exact PoolState.ext hO hB

theorem poolFwdVal_avg_def (pd : PoolDesc) (sq : ℚ → ℚ) (I : ℕ → ℕ → ℚ)
    (w : ℕ × ℕ × ℕ × ℕ) (n : ℕ) (hop : pd.op = PoolOp.pavg) :
    poolFwdVal pd sq I w n = listMean (poolWindowVals pd I w n) := by
  unfold poolFwdVal
  rw [hop]

theorem poolFwdVal_max_def (pd : PoolDesc) (sq : ℚ → ℚ) (I : ℕ → ℕ → ℚ)
    (w : ℕ × ℕ × ℕ × ℕ) (n : ℕ) (hop : pd.op = PoolOp.pmax) :
    poolFwdVal pd sq I w n = listMax (poolWindowVals pd I w n) := by
  unfold poolFwdVal
  rw [hop]

theorem poolBpropWindow_avg_def (pd : PoolDesc) (I : ℕ → ℕ → ℚ)
    (E : ℕ → ℕ → ℕ → ℕ → ℕ → ℚ) (B : ℕ → ℕ → ℚ) (w : ℕ × ℕ × ℕ × ℕ)
    (i n : ℕ) (hop : pd.op = PoolOp.pavg) :
    poolBpropWindow pd I E B w i n =
      scatterAdd (fun i' => B i' n)
        (fun _ => E w.1 w.2.1 w.2.2.1 w.2.2.2 n *
          (1 / ((poolPixelIndices pd (poolKj pd w.1) (poolMt pd w.2.1)
            (poolPr pd w.2.2.1) (poolQs pd w.2.2.2)).length : ℚ)))
        0 (poolPixelIndices pd (poolKj pd w.1) (poolMt pd w.2.1)
          (poolPr pd w.2.2.1) (poolQs pd w.2.2.2))
        (fun i' => B i' n) i := by
  unfold poolBpropWindow
  rw [hop]

theorem poolBpropWindow_max_def (pd : PoolDesc) (I : ℕ → ℕ → ℚ)
    (E : ℕ → ℕ → ℕ → ℕ → ℕ → ℚ) (B : ℕ → ℕ → ℚ) (w : ℕ × ℕ × ℕ × ℕ)
    (i n : ℕ) (hop : pd.op = PoolOp.pmax) :
    poolBpropWindow pd I E B w i n =
      if i = (poolPixelIndices pd (poolKj pd w.1) (poolMt pd w.2.1)
          (poolPr pd w.2.2.1) (poolQs pd w.2.2.2)).getD
            (listArgmax (poolWindowVals pd I w n)) 0 then
        B i n + E w.1 w.2.1 w.2.2.1 w.2.2.2 n
      else B i n := by
  unfold poolBpropWindow
  rw [hop]

theorem poolFwdVal_avg (pd : PoolDesc) (sq : ℚ → ℚ) (I : ℕ → ℕ → ℚ)
    (w : ℕ × ℕ × ℕ × ℕ) (n : ℕ) (hop : pd.op = PoolOp.pavg)
    (hI : ∀ n', I (pd.C * (pd.D * pd.H * pd.W)) n' = 0) :
    poolFwdVal pd sq I w n =
      (∑ j ∈ Finset.range pd.J, ∑ t ∈ Finset.range pd.T,
        ∑ r ∈ Finset.range pd.R, ∑ s ∈ Finset.range pd.S,
          if poolInB pd (poolKj pd w.1) (poolMt pd w.2.1) (poolPr pd w.2.2.1)
              (poolQs pd w.2.2.2) j t r s then
            I (flat3 pd.D pd.H pd.W (poolKj pd w.1 + j).toNat
                (poolMt pd w.2.1 + t).toNat (poolPr pd w.2.2.1 + r).toNat
                (poolQs pd w.2.2.2 + s).toNat) n
          else 0) / ((pd.J * pd.T * pd.R * pd.S : ℕ) : ℚ) := by
  rw [poolFwdVal_avg_def pd sq I w n hop]
  unfold listMean poolWindowVals
  rw [List.length_map, poolPixelIndices_length]
  unfold poolPixelIndices
  rw [sum_map_quadList]
  have hsum : ∀ j ∈ Finset.range pd.J, ∀ t ∈ Finset.range pd.T,
      ∀ r ∈ Finset.range pd.R, ∀ s ∈ Finset.range pd.S,
      I (poolTap pd (poolKj pd w.1) (poolMt pd w.2.1) (poolPr pd w.2.2.1)
          (poolQs pd w.2.2.2) j t r s) n =
        if poolInB pd (poolKj pd w.1) (poolMt pd w.2.1) (poolPr pd w.2.2.1)
            (poolQs pd w.2.2.2) j t r s then
          I (flat3 pd.D pd.H pd.W (poolKj pd w.1 + j).toNat
              (poolMt pd w.2.1 + t).toNat (poolPr pd w.2.2.1 + r).toNat
              (poolQs pd w.2.2.2 + s).toNat) n
        else 0 := by
    intro j _ t _ r _ s _
    unfold poolTap
    by_cases hb : poolInB pd (poolKj pd w.1) (poolMt pd w.2.1) (poolPr pd w.2.2.1)
        (poolQs pd w.2.2.2) j t r s
    · rw [if_pos hb, if_pos hb]
    · rw [if_neg hb, if_neg hb, hI n]
  have hcast : ((pd.J * (pd.T * (pd.R * pd.S)) : ℕ) : ℚ) =
      ((pd.J * pd.T * pd.R * pd.S : ℕ) : ℚ) := by
    norm_cast
    ring
  rw [hcast]
  congr 1
  apply Finset.sum_congr rfl
  intro j hj
  apply Finset.sum_congr rfl
  intro t ht
  apply Finset.sum_congr rfl
  intro r hr
  apply Finset.sum_congr rfl
  intro s hs
  exact hsum j hj t ht r hr s hs

theorem poolBpropWindow_avg (pd : PoolDesc) (I : ℕ → ℕ → ℚ)
    (E : ℕ → ℕ → ℕ → ℕ → ℕ → ℚ) (B : ℕ → ℕ → ℚ) (w : ℕ × ℕ × ℕ × ℕ)
    (i n : ℕ) (hop : pd.op = PoolOp.pavg) :
    poolBpropWindow pd I E B w i n =
      B i n + (if i ∈ poolPixelIndices pd (poolKj pd w.1) (poolMt pd w.2.1)
          (poolPr pd w.2.2.1) (poolQs pd w.2.2.2) then
        E w.1 w.2.1 w.2.2.1 w.2.2.2 n / ((pd.J * pd.T * pd.R * pd.S : ℕ) : ℚ)
      else 0) := by
  rw [poolBpropWindow_avg_def pd I E B w i n hop]
  rw [scatterAdd_const]
  have hv : E w.1 w.2.1 w.2.2.1 w.2.2.2 n *
      (1 / ((poolPixelIndices pd (poolKj pd w.1) (poolMt pd w.2.1)
        (poolPr pd w.2.2.1) (poolQs pd w.2.2.2)).length : ℚ)) =
      E w.1 w.2.1 w.2.2.1 w.2.2.2 n / ((pd.J * pd.T * pd.R * pd.S : ℕ) : ℚ) := by
    rw [poolPixelIndices_length]
    have hcast : ((pd.J * (pd.T * (pd.R * pd.S)) : ℕ) : ℚ) =
        ((pd.J * pd.T * pd.R * pd.S : ℕ) : ℚ) := by
      norm_cast
      ring
    rw [hcast]
    ring
  by_cases hm : i ∈ poolPixelIndices pd (poolKj pd w.1) (poolMt pd w.2.1)
      (poolPr pd w.2.2.1) (poolQs pd w.2.2.2)
  · rw [if_pos hm, if_pos hm, hv]
  · rw [if_neg hm, if_neg hm, add_zero]

theorem poolFwdVal_avg_oob (pd : PoolDesc) (sq : ℚ → ℚ) (I : ℕ → ℕ → ℚ)
    (w : ℕ × ℕ × ℕ × ℕ) (n : ℕ) (hop : pd.op = PoolOp.pavg)
    (hI : ∀ n', I (pd.C * (pd.D * pd.H * pd.W)) n' = 0)
    (hoob : ∀ j t r s, j < pd.J → t < pd.T → r < pd.R → s < pd.S →
      ¬ poolInB pd (poolKj pd w.1) (poolMt pd w.2.1) (poolPr pd w.2.2.1)
        (poolQs pd w.2.2.2) j t r s) :
    poolFwdVal pd sq I w n = 0 := by
  rw [poolFwdVal_avg pd sq I w n hop hI]
  have hz : ∑ j ∈ Finset.range pd.J, ∑ t ∈ Finset.range pd.T,
      ∑ r ∈ Finset.range pd.R, ∑ s ∈ Finset.range pd.S,
      (if poolInB pd (poolKj pd w.1) (poolMt pd w.2.1) (poolPr pd w.2.2.1)
          (poolQs pd w.2.2.2) j t r s then
        I (flat3 pd.D pd.H pd.W (poolKj pd w.1 + j).toNat
            (poolMt pd w.2.1 + t).toNat (poolPr pd w.2.2.1 + r).toNat
            (poolQs pd w.2.2.2 + s).toNat) n
      else 0) = 0 := by
    apply Finset.sum_eq_zero
    intro j hj
    apply Finset.sum_eq_zero
    intro t ht
    apply Finset.sum_eq_zero
    intro r hr
    apply Finset.sum_eq_zero
    intro s hs
    exact if_neg (hoob j t r s (Finset.mem_range.1 hj) (Finset.mem_range.1 ht)
      (Finset.mem_range.1 hr) (Finset.mem_range.1 hs))
  rw [hz, zero_div]

theorem convTap_le (cv : ConvDesc) (mt pr qs : ℤ) {c : ℕ} (t r s : ℕ)
    (hc : c < cv.C) :
    convTap cv mt pr qs c t r s ≤ cv.C * (cv.D * cv.H * cv.W) := by
  unfold convTap
  by_cases hb : inBounds3 cv.D cv.H cv.W (mt + t) (pr + r) (qs + s)
  · rw [if_pos hb]
    obtain ⟨hz, hy, hx⟩ := conv_tap_bounds hb
    exact le_of_lt (flat3_lt hc hz hy hx)
  · rw [if_neg hb]

theorem mem_convPixelIndices_le (cv : ConvDesc) (mt pr qs : ℤ) :
    ∀ i ∈ convPixelIndices cv mt pr qs, i ≤ cv.C * (cv.D * cv.H * cv.W) := by
  intro i hmem
  obtain ⟨a, ha, hget⟩ := exists_getD_of_mem _ i hmem
  rw [convPixelIndices_length] at ha
  obtain ⟨c, t, r, s, hc, ht, hr, hs, he⟩ := exists_quad_digits ha
  rw [he, convPixelIndices_getD cv _ _ _ hc ht hr hs] at hget
  rw [← hget]
  exact convTap_le cv mt pr qs t r s hc

theorem poolTap_le (pd : PoolDesc) (kj mt pr qs : ℤ) (j t r s : ℕ) :
    poolTap pd kj mt pr qs j t r s ≤ pd.C * (pd.D * pd.H * pd.W) := by
  unfold poolTap
  by_cases hb : poolInB pd kj mt pr qs j t r s
  · rw [if_pos hb]
    obtain ⟨hcz, hz, hy, hx⟩ := poolTap_bounds pd hb
    exact le_of_lt (flat3_lt hcz hz hy hx)
  · rw [if_neg hb]

theorem mem_poolPixelIndices_le (pd : PoolDesc) (kj mt pr qs : ℤ) :
    ∀ i ∈ poolPixelIndices pd kj mt pr qs, i ≤ pd.C * (pd.D * pd.H * pd.W) := by
  intro i hmem
  obtain ⟨a, ha, hget⟩ := exists_getD_of_mem _ i hmem
  rw [poolPixelIndices_length] at ha
  obtain ⟨j, t, r, s, hj, ht, hr, hs, he⟩ := exists_quad_digits ha
  rw [he, poolPixelIndices_getD pd _ _ _ _ hj ht hr hs] at hget
  rw [← hget]
  exact poolTap_le pd kj mt pr qs j t r s

/-! ### Concrete instances used by the witnesses -/

/-- Degenerate 1x1x1 convolution configuration of the spec scenario. -/
def cvUnit : ConvDesc := ⟨1, 1, 1, 1, 1, 1, 1, 1, 1, 0, 0, 0, 1, 1, 1⟩

/-- Concrete input array with a zero-filled sentinel row (row 1). -/
def wI : ℕ → ℕ → ℚ := fun i _ => if i = 0 then 2 else 0

/-- Concrete filter array. -/
def wF : ℕ → ℕ → ℚ := fun _ _ => 3

/-- Concrete upstream error array. -/
def wE5 : ℕ → ℕ → ℕ → ℕ → ℕ → ℚ := fun _ _ _ _ _ => 5

/-- Concrete unit upstream error array. -/
def wE1 : ℕ → ℕ → ℕ → ℕ → ℕ → ℚ := fun _ _ _ _ _ => 1

/-- Two-channel 1x1 spatial average-pooling configuration with channel
window 2. -/
def pdAvg : PoolDesc :=
  ⟨PoolOp.pavg, 1, 2, 1, 1, 1, 2, 1, 1, 1, 0, 0, 0, 0, 1, 1, 1, 1⟩

/-- Two-channel 1x1 spatial max-pooling configuration with channel
window 2, the spec scenario. -/
def pdMax : PoolDesc :=
  ⟨PoolOp.pmax, 1, 2, 1, 1, 1, 2, 1, 1, 1, 0, 0, 0, 0, 1, 1, 1, 1⟩

/-- Average pooling on a 1x1x1 input with width padding 1, producing a fully
out-of-bounds window at q = 0. -/
def pdOob : PoolDesc :=
  ⟨PoolOp.pavg, 1, 1, 1, 1, 1, 1, 1, 1, 1, 0, 0, 0, 1, 1, 1, 1, 1⟩

/-- Concrete pool input with channel values 3 and 5 and zero sentinel row. -/
def pwI : ℕ → ℕ → ℚ := fun i _ => if i = 0 then 3 else if i = 1 then 5 else 0

/-- Concrete pool input with a single value 7 and zero sentinel row. -/
def pwI0 : ℕ → ℕ → ℚ := fun i _ => if i = 0 then 7 else 0

/-- Concrete zero gradient buffer. -/
def wB : ℕ → ℕ → ℚ := fun _ _ => 0

/-- Concrete zero pool state. -/
def stZero : PoolState := ⟨fun _ _ => 0, fun _ _ => 0⟩

/-! ### The claims -/

/-- C1: for every valid convolution configuration and identical inputs, the
fprop_conv, bprop_conv and update_conv outputs of the accelerator backend
match the brute-force window-gather reference within absolute tolerance
1e-4 (rtol 0), and the host backend outputs match it within absolute
tolerance 1e-5 (rtol 0).  Both backends are modelled from the spec over
exact arithmetic, under which they agree with the reference exactly. -/
theorem claim_C1_backend_numeric_equivalence (cv : ConvDesc)
    (I F : ℕ → ℕ → ℚ) (E : ℕ → ℕ → ℕ → ℕ → ℕ → ℚ)
    (hI : ∀ n', I (cv.C * (cv.D * cv.H * cv.W)) n' = 0) :
    (∀ k m p q n,
      |accelFpropConv cv I F k m p q n - fpropRef cv I F k m p q n| ≤ 1 / 10000 ∧
      |hostFpropConv cv I F k m p q n - fpropRef cv I F k m p q n| ≤ 1 / 100000) ∧
    (∀ i n, i < cv.C * (cv.D * cv.H * cv.W) →
      |accelBpropConv cv F E i n - bpropRef cv F E i n| ≤ 1 / 10000 ∧
      |hostBpropConv cv F E i n - bpropRef cv F E i n| ≤ 1 / 100000) ∧
    (∀ c t r s k, c < cv.C → t < cv.T → r < cv.R → s < cv.S →
      |accelUpdateConv cv I E c t r s k -
        updateRef cv I E (flat4 cv.T cv.R cv.S c t r s) k| ≤ 1 / 10000 ∧
      |hostUpdateConv cv I E c t r s k -
        updateRef cv I E (flat4 cv.T cv.R cv.S c t r s) k| ≤ 1 / 100000) := by
  have htol : ∀ x y : ℚ, x = y → ∀ tol : ℚ, 0 ≤ tol → |x - y| ≤ tol := by
    intro x y hxy tol htol
    rw [hxy, sub_self, abs_zero]
    exact htol
  refine ⟨?_, ?_, ?_⟩
  · intro k m p q n
    have h := fpropRef_eq_formula cv I F hI k m p q n
    have hhost : hostFpropConv cv I F k m p q n = accelFpropConv cv I F k m p q n := rfl
    constructor
    · exact htol _ _ h.symm _ (by norm_num)
    · exact htol _ _ (hhost.trans h.symm) _ (by norm_num)
  · intro i n hi
    have h := bpropRef_eq_formula cv F E i n hi
    have hhost : hostBpropConv cv F E i n = accelBpropConv cv F E i n := rfl
    constructor
    · exact htol _ _ h.symm _ (by norm_num)
    · exact htol _ _ (hhost.trans h.symm) _ (by norm_num)
  · intro c t r s k hc ht hr hs
    have h := updateRef_eq_formula cv I E hI k hc ht hr hs
    have hhost : hostUpdateConv cv I E c t r s k =
        accelUpdateConv cv I E c t r s k := rfl
    constructor
    · exact htol _ _ h.symm _ (by norm_num)
    · exact htol _ _ (hhost.trans h.symm) _ (by norm_num)

/-- C1 witness: the equivalence instantiated at the degenerate unit
configuration and concrete arrays. -/
theorem claim_C1_witness :
    (∀ n', wI (cvUnit.C * (cvUnit.D * cvUnit.H * cvUnit.W)) n' = 0) ∧
    |accelFpropConv cvUnit wI wF 0 0 0 0 0 - fpropRef cvUnit wI wF 0 0 0 0 0| ≤
      1 / 10000 := by
  have hI : ∀ n', wI (cvUnit.C * (cvUnit.D * cvUnit.H * cvUnit.W)) n' = 0 :=
    fun _ => rfl
  exact ⟨hI,
    ((claim_C1_backend_numeric_equivalence cvUnit wI wF wE5 hI).1 0 0 0 0 0).1⟩

/-- C2: the reference forward convolution computes O[k,m,p,q,n] as the sum
over (c,t,r,s) of F[c,t,r,s,k] times the input element at the window
position (c, m str_d - pad_d + t, p str_h - pad_h + r, q str_w - pad_w + s, n),
an out-of-bounds tap contributing exactly zero through the zero-filled
sentinel row, and a fully out-of-bounds window yields 0. -/
theorem claim_C2_fprop_reference (cv : ConvDesc) (I F : ℕ → ℕ → ℚ)
    (hI : ∀ n', I (cv.C * (cv.D * cv.H * cv.W)) n' = 0) (k m p q n : ℕ) :
    fpropRef cv I F k m p q n =
      (∑ c ∈ Finset.range cv.C, ∑ t ∈ Finset.range cv.T,
        ∑ r ∈ Finset.range cv.R, ∑ s ∈ Finset.range cv.S,
          F (flat4 cv.T cv.R cv.S c t r s) k *
            (if inBounds3 cv.D cv.H cv.W ((m : ℤ) * cv.str_d - cv.pad_d + t)
                ((p : ℤ) * cv.str_h - cv.pad_h + r)
                ((q : ℤ) * cv.str_w - cv.pad_w + s) then
              I (flat3 cv.D cv.H cv.W c ((m : ℤ) * cv.str_d - cv.pad_d + t).toNat
                  ((p : ℤ) * cv.str_h - cv.pad_h + r).toNat
                  ((q : ℤ) * cv.str_w - cv.pad_w + s).toNat) n
            else 0)) ∧
    ((∀ c t r s, c < cv.C → t < cv.T → r < cv.R → s < cv.S →
        ¬ inBounds3 cv.D cv.H cv.W ((m : ℤ) * cv.str_d - cv.pad_d + t)
          ((p : ℤ) * cv.str_h - cv.pad_h + r)
          ((q : ℤ) * cv.str_w - cv.pad_w + s)) →
      fpropRef cv I F k m p q n = 0) := by
  have h := fpropRef_eq_formula cv I F hI k m p q n
  simp only [accelFpropConv, mtOf, prOf, qsOf] at h
  constructor
  · exact h
  · intro hoob
    rw [h]
    apply Finset.sum_eq_zero
    intro c hc
    apply Finset.sum_eq_zero
    intro t ht
    apply Finset.sum_eq_zero
    intro r hr
    apply Finset.sum_eq_zero
    intro s hs
    rw [if_neg (hoob c t r s (Finset.mem_range.1 hc) (Finset.mem_range.1 ht)
      (Finset.mem_range.1 hr) (Finset.mem_range.1 hs)), mul_zero]

/-- C2 witness: the reference formula instantiated at the degenerate unit
configuration and concrete arrays. -/
theorem claim_C2_witness :
    (∀ n', wI (cvUnit.C * (cvUnit.D * cvUnit.H * cvUnit.W)) n' = 0) ∧
    fpropRef cvUnit wI wF 0 0 0 0 0 =
      (∑ c ∈ Finset.range cvUnit.C, ∑ t ∈ Finset.range cvUnit.T,
        ∑ r ∈ Finset.range cvUnit.R, ∑ s ∈ Finset.range cvUnit.S,
          wF (flat4 cvUnit.T cvUnit.R cvUnit.S c t r s) 0 *
            (if inBounds3 cvUnit.D cvUnit.H cvUnit.W
                ((0 : ℤ) * cvUnit.str_d - cvUnit.pad_d + t)
                ((0 : ℤ) * cvUnit.str_h - cvUnit.pad_h + r)
                ((0 : ℤ) * cvUnit.str_w - cvUnit.pad_w + s) then
              wI (flat3 cvUnit.D cvUnit.H cvUnit.W c
                  ((0 : ℤ) * cvUnit.str_d - cvUnit.pad_d + t).toNat
                  ((0 : ℤ) * cvUnit.str_h - cvUnit.pad_h + r).toNat
                  ((0 : ℤ) * cvUnit.str_w - cvUnit.pad_w + s).toNat) 0
            else 0)) := by
  have hI : ∀ n', wI (cvUnit.C * (cvUnit.D * cvUnit.H * cvUnit.W)) n' = 0 :=
    fun _ => rfl
  exact ⟨hI, (claim_C2_fprop_reference cvUnit wI wF hI 0 0 0 0 0).1⟩

/-- C3: for every valid parameter tuple the descriptor derives
M = floor((D + 2 pad_d - T)/str_d) + 1 (analogously P, Q), together with
dimI = (C,D,H,W,N), dimF = (C,T,R,S,K), dimO = (K,M,P,Q,N), and both
backends derive exactly the same shape data. -/
theorem claim_C3_descriptor_dims (cv : ConvDesc)
    (hT : cv.T ≤ cv.D + 2 * cv.pad_d) (hsd : 0 < cv.str_d)
    (hR : cv.R ≤ cv.H + 2 * cv.pad_h) (hsh : 0 < cv.str_h)
    (hS : cv.S ≤ cv.W + 2 * cv.pad_w) (hsw : 0 < cv.str_w) :
    accelConvLayer cv = hostConvLayer cv ∧
    ((accelConvLayer cv).M : ℤ) =
      ((cv.D : ℤ) + 2 * cv.pad_d - cv.T) / cv.str_d + 1 ∧
    ((accelConvLayer cv).P : ℤ) =
      ((cv.H : ℤ) + 2 * cv.pad_h - cv.R) / cv.str_h + 1 ∧
    ((accelConvLayer cv).Q : ℤ) =
      ((cv.W : ℤ) + 2 * cv.pad_w - cv.S) / cv.str_w + 1 ∧
    (accelConvLayer cv).dimI = (cv.C, cv.D, cv.H, cv.W, cv.N) ∧
    (accelConvLayer cv).dimF = (cv.C, cv.T, cv.R, cv.S, cv.K) ∧
    (accelConvLayer cv).dimO = (cv.K, cv.M, cv.P, cv.Q, cv.N) := by
  refine ⟨rfl, ?_, ?_, ?_, rfl, rfl, rfl⟩
  · rw [show (accelConvLayer cv).M = cv.M from rfl]
    unfold ConvDesc.M
    rw [Nat.cast_add, Nat.cast_one, Int.ofNat_ediv, Nat.cast_sub hT]
    push_cast
    ring_nf
  · rw [show (accelConvLayer cv).P = cv.P from rfl]
    unfold ConvDesc.P
    rw [Nat.cast_add, Nat.cast_one, Int.ofNat_ediv, Nat.cast_sub hR]
    push_cast
    ring_nf
  · rw [show (accelConvLayer cv).Q = cv.Q from rfl]
    unfold ConvDesc.Q
    rw [Nat.cast_add, Nat.cast_one, Int.ofNat_ediv, Nat.cast_sub hS]
    push_cast
    ring_nf

/-- C3 witness: the dim contract instantiated at the unit configuration. -/
theorem claim_C3_witness :
    (cvUnit.T ≤ cvUnit.D + 2 * cvUnit.pad_d) ∧ (0 < cvUnit.str_d) ∧
    accelConvLayer cvUnit = hostConvLayer cvUnit ∧
    ((accelConvLayer cvUnit).M : ℤ) =
      ((cvUnit.D : ℤ) + 2 * cvUnit.pad_d - cvUnit.T) / cvUnit.str_d + 1 := by
  have h := claim_C3_descriptor_dims cvUnit (by decide) (by decide) (by decide)
    (by decide) (by decide) (by decide)
  exact ⟨by decide, by decide, h.1, h.2.1⟩

/-- C6: the reference backward convolution accumulates, for every window and
every (c,t,r,s), the product F[c,t,r,s,k] E[k,m,p,q,n] (summed over k) at
exactly the window positions fprop gathers from; every contribution whose
target is out of bounds is discarded, so the in-bounds part of B equals the
sum of in-bounds contributions only. -/
theorem claim_C6_bprop_scatter (cv : ConvDesc) (F : ℕ → ℕ → ℚ)
    (E : ℕ → ℕ → ℕ → ℕ → ℕ → ℚ) (i n : ℕ)
    (hi : i < cv.C * (cv.D * cv.H * cv.W)) :
    bpropRef cv F E i n =
      ∑ m ∈ Finset.range cv.M, ∑ p ∈ Finset.range cv.P, ∑ q ∈ Finset.range cv.Q,
        ∑ c ∈ Finset.range cv.C, ∑ t ∈ Finset.range cv.T,
          ∑ r ∈ Finset.range cv.R, ∑ s ∈ Finset.range cv.S,
            if inBounds3 cv.D cv.H cv.W ((m : ℤ) * cv.str_d - cv.pad_d + t)
                ((p : ℤ) * cv.str_h - cv.pad_h + r)
                ((q : ℤ) * cv.str_w - cv.pad_w + s) ∧
                flat3 cv.D cv.H cv.W c ((m : ℤ) * cv.str_d - cv.pad_d + t).toNat
                  ((p : ℤ) * cv.str_h - cv.pad_h + r).toNat
                  ((q : ℤ) * cv.str_w - cv.pad_w + s).toNat = i then
              ∑ k ∈ Finset.range cv.K, F (flat4 cv.T cv.R cv.S c t r s) k *
                E k m p q n
            else 0 := by
  have h := bpropRef_eq_formula cv F E i n hi
  simp only [accelBpropConv, mtOf, prOf, qsOf] at h
  exact h

/-- C6 witness: the scatter characterization instantiated at the unit
configuration. -/
theorem claim_C6_witness :
    (0 < cvUnit.C * (cvUnit.D * cvUnit.H * cvUnit.W)) ∧
    bpropRef cvUnit wF wE5 0 0 =
      ∑ m ∈ Finset.range cvUnit.M, ∑ p ∈ Finset.range cvUnit.P,
        ∑ q ∈ Finset.range cvUnit.Q, ∑ c ∈ Finset.range cvUnit.C,
          ∑ t ∈ Finset.range cvUnit.T, ∑ r ∈ Finset.range cvUnit.R,
            ∑ s ∈ Finset.range cvUnit.S,
              if inBounds3 cvUnit.D cvUnit.H cvUnit.W
                  ((m : ℤ) * cvUnit.str_d - cvUnit.pad_d + t)
                  ((p : ℤ) * cvUnit.str_h - cvUnit.pad_h + r)
                  ((q : ℤ) * cvUnit.str_w - cvUnit.pad_w + s) ∧
                  flat3 cvUnit.D cvUnit.H cvUnit.W c
                    ((m : ℤ) * cvUnit.str_d - cvUnit.pad_d + t).toNat
                    ((p : ℤ) * cvUnit.str_h - cvUnit.pad_h + r).toNat
                    ((q : ℤ) * cvUnit.str_w - cvUnit.pad_w + s).toNat = 0 then
                ∑ k ∈ Finset.range cvUnit.K,
                  wF (flat4 cvUnit.T cvUnit.R cvUnit.S c t r s) k * wE5 k m p q 0
              else 0 :=
  ⟨by decide, claim_C6_bprop_scatter cvUnit wF wE5 0 0 (by decide)⟩

/-- C9: for the degenerate configuration with every extent 1, padding 0 and
stride 1, the derived dimO is (1,1,1,1,1) on both backends and the reference
forward convolution reduces to the scalar product F times I. -/
theorem claim_C9_degenerate_scalar (I F : ℕ → ℕ → ℚ) (n : ℕ) :
    (accelConvLayer cvUnit).dimO = (1, 1, 1, 1, 1) ∧
    (hostConvLayer cvUnit).dimO = (1, 1, 1, 1, 1) ∧
    fpropRef cvUnit I F 0 0 0 0 n = F 0 0 * I 0 n := by
  refine ⟨rfl, rfl, ?_⟩
  have hidx : convPixelIndices cvUnit (mtOf cvUnit 0) (prOf cvUnit 0)
      (qsOf cvUnit 0) = [0] := by decide
  show dotFrom (fun a => F a 0) (fun i => I i n) 0
    (convPixelIndices cvUnit (mtOf cvUnit 0) (prOf cvUnit 0) (qsOf cvUnit 0)) =
    F 0 0 * I 0 n
  rw [hidx]
  show F 0 0 * I 0 n + 0 = F 0 0 * I 0 n
  rw [add_zero]

/-- C10: for every window position the conv pixel_indices list has exactly
C T R S entries and the pool list exactly J T R S entries; every entry is at
most the sentinel C D H W, and the entry of a tap equals the sentinel exactly
when the tap is out of bounds, the in-bounds flat index being strictly below
the sentinel. -/
theorem claim_C10_pixel_indices_safety (cv : ConvDesc) (mt pr qs : ℤ)
    (pd : PoolDesc) (kj mt' pr' qs' : ℤ) :
    (convPixelIndices cv mt pr qs).length = cv.C * cv.T * cv.R * cv.S ∧
    (poolPixelIndices pd kj mt' pr' qs').length = pd.J * pd.T * pd.R * pd.S ∧
    (∀ i ∈ convPixelIndices cv mt pr qs, i ≤ cv.C * (cv.D * cv.H * cv.W)) ∧
    (∀ i ∈ poolPixelIndices pd kj mt' pr' qs', i ≤ pd.C * (pd.D * pd.H * pd.W)) ∧
    (∀ c t r s, c < cv.C → t < cv.T → r < cv.R → s < cv.S →
      (inBounds3 cv.D cv.H cv.W (mt + t) (pr + r) (qs + s) →
        (convPixelIndices cv mt pr qs).getD (flat4 cv.T cv.R cv.S c t r s) 0 =
          flat3 cv.D cv.H cv.W c (mt + t).toNat (pr + r).toNat (qs + s).toNat ∧
        flat3 cv.D cv.H cv.W c (mt + t).toNat (pr + r).toNat (qs + s).toNat <
          cv.C * (cv.D * cv.H * cv.W)) ∧
      (¬ inBounds3 cv.D cv.H cv.W (mt + t) (pr + r) (qs + s) →
        (convPixelIndices cv mt pr qs).getD (flat4 cv.T cv.R cv.S c t r s) 0 =
          cv.C * (cv.D * cv.H * cv.W))) ∧
    (∀ j t r s, j < pd.J → t < pd.T → r < pd.R → s < pd.S →
      (poolInB pd kj mt' pr' qs' j t r s →
        (poolPixelIndices pd kj mt' pr' qs').getD (flat4 pd.T pd.R pd.S j t r s) 0 =
          flat3 pd.D pd.H pd.W (kj + j).toNat (mt' + t).toNat (pr' + r).toNat
            (qs' + s).toNat ∧
        flat3 pd.D pd.H pd.W (kj + j).toNat (mt' + t).toNat (pr' + r).toNat
          (qs' + s).toNat < pd.C * (pd.D * pd.H * pd.W)) ∧
      (¬ poolInB pd kj mt' pr' qs' j t r s →
        (poolPixelIndices pd kj mt' pr' qs').getD (flat4 pd.T pd.R pd.S j t r s) 0 =
          pd.C * (pd.D * pd.H * pd.W))) := by
  refine ⟨?_, ?_, mem_convPixelIndices_le cv mt pr qs,
    mem_poolPixelIndices_le pd kj mt' pr' qs', ?_, ?_⟩
  · rw [convPixelIndices_length]
    ring
  · rw [poolPixelIndices_length]
    ring
  · intro c t r s hc ht hr hs
    constructor
    · intro hb
      rw [convPixelIndices_getD cv mt pr qs hc ht hr hs]
      obtain ⟨hz, hy, hx⟩ := conv_tap_bounds hb
      constructor
      · unfold convTap
        rw [if_pos hb]
      · exact flat3_lt hc hz hy hx
    · intro hb
      rw [convPixelIndices_getD cv mt pr qs hc ht hr hs]
      unfold convTap
      rw [if_neg hb]
  · intro j t r s hj ht hr hs
    constructor
    · intro hb
      rw [poolPixelIndices_getD pd kj mt' pr' qs' hj ht hr hs]
      obtain ⟨hcz, hz, hy, hx⟩ := poolTap_bounds pd hb
      constructor
      · unfold poolTap
        rw [if_pos hb]
      · exact flat3_lt hcz hz hy hx
    · intro hb
      rw [poolPixelIndices_getD pd kj mt' pr' qs' hj ht hr hs]
      unfold poolTap
      rw [if_neg hb]

/-- C10 witness: the safety contract instantiated at the unit conv
configuration and the concrete avg pool configuration. -/
theorem claim_C10_witness :
    (convPixelIndices cvUnit 0 0 0).length =
      cvUnit.C * cvUnit.T * cvUnit.R * cvUnit.S ∧
    (poolPixelIndices pdAvg 0 0 0 0).length =
      pdAvg.J * pdAvg.T * pdAvg.R * pdAvg.S :=
  ⟨(claim_C10_pixel_indices_safety cvUnit 0 0 0 pdAvg 0 0 0 0).1,
    (claim_C10_pixel_indices_safety cvUnit 0 0 0 pdAvg 0 0 0 0).2.1⟩

/-- C4: for every window position in average pooling the reference output is
the window sum divided by the fixed window size J T R S (out-of-bounds taps
counting as zero-valued members), not by the count of in-bounds taps; the
backward pass adds gradient/(J T R S) to every tap position of the window,
the additions targeting out-of-bounds positions being discarded. -/
theorem claim_C4_avg_pool_divisor (pd : PoolDesc) (sq : ℚ → ℚ) (I : ℕ → ℕ → ℚ)
    (E : ℕ → ℕ → ℕ → ℕ → ℕ → ℚ) (B : ℕ → ℕ → ℚ) (w : ℕ × ℕ × ℕ × ℕ) (n : ℕ)
    (hop : pd.op = PoolOp.pavg)
    (hI : ∀ n', I (pd.C * (pd.D * pd.H * pd.W)) n' = 0) :
    poolFwdVal pd sq I w n =
      (∑ j ∈ Finset.range pd.J, ∑ t ∈ Finset.range pd.T,
        ∑ r ∈ Finset.range pd.R, ∑ s ∈ Finset.range pd.S,
          if poolInB pd (poolKj pd w.1) (poolMt pd w.2.1) (poolPr pd w.2.2.1)
              (poolQs pd w.2.2.2) j t r s then
            I (flat3 pd.D pd.H pd.W (poolKj pd w.1 + j).toNat
                (poolMt pd w.2.1 + t).toNat (poolPr pd w.2.2.1 + r).toNat
                (poolQs pd w.2.2.2 + s).toNat) n
          else 0) / ((pd.J * pd.T * pd.R * pd.S : ℕ) : ℚ) ∧
    (∀ i, i < pd.C * (pd.D * pd.H * pd.W) →
      poolBpropWindow pd I E B w i n = B i n +
        (if i ∈ poolPixelIndices pd (poolKj pd w.1) (poolMt pd w.2.1)
            (poolPr pd w.2.2.1) (poolQs pd w.2.2.2) then
          E w.1 w.2.1 w.2.2.1 w.2.2.2 n / ((pd.J * pd.T * pd.R * pd.S : ℕ) : ℚ)
        else 0)) ∧
    (∀ i, i < pd.C * (pd.D * pd.H * pd.W) →
      (i ∈ poolPixelIndices pd (poolKj pd w.1) (poolMt pd w.2.1)
          (poolPr pd w.2.2.1) (poolQs pd w.2.2.2) ↔
        ∃ j t r s, j < pd.J ∧ t < pd.T ∧ r < pd.R ∧ s < pd.S ∧
          poolInB pd (poolKj pd w.1) (poolMt pd w.2.1) (poolPr pd w.2.2.1)
            (poolQs pd w.2.2.2) j t r s ∧
          flat3 pd.D pd.H pd.W (poolKj pd w.1 + j).toNat
            (poolMt pd w.2.1 + t).toNat (poolPr pd w.2.2.1 + r).toNat
            (poolQs pd w.2.2.2 + s).toNat = i)) := by
  refine ⟨poolFwdVal_avg pd sq I w n hop hI, ?_, ?_⟩
  · intro i _
    exact poolBpropWindow_avg pd I E B w i n hop
  · intro i hi
    exact mem_poolPixelIndices_iff pd _ _ _ _ i hi

/-- C4 witness: the divisor contract instantiated at the two-channel avg
configuration, where the output is (3+5)/2 = 4. -/
theorem claim_C4_witness :
    (pdAvg.op = PoolOp.pavg) ∧
    (∀ n', pwI (pdAvg.C * (pdAvg.D * pdAvg.H * pdAvg.W)) n' = 0) ∧
    poolFwdVal pdAvg id pwI (0, 0, 0, 0) 0 =
      (∑ j ∈ Finset.range pdAvg.J, ∑ t ∈ Finset.range pdAvg.T,
        ∑ r ∈ Finset.range pdAvg.R, ∑ s ∈ Finset.range pdAvg.S,
          if poolInB pdAvg (poolKj pdAvg 0) (poolMt pdAvg 0) (poolPr pdAvg 0)
              (poolQs pdAvg 0) j t r s then
            pwI (flat3 pdAvg.D pdAvg.H pdAvg.W (poolKj pdAvg 0 + j).toNat
                (poolMt pdAvg 0 + t).toNat (poolPr pdAvg 0 + r).toNat
                (poolQs pdAvg 0 + s).toNat) 0
          else 0) / ((pdAvg.J * pdAvg.T * pdAvg.R * pdAvg.S : ℕ) : ℚ) ∧
    poolFwdVal pdAvg id pwI (0, 0, 0, 0) 0 = 4 := by
  have hI : ∀ n', pwI (pdAvg.C * (pdAvg.D * pdAvg.H * pdAvg.W)) n' = 0 :=
    fun _ => rfl
  refine ⟨rfl, hI, ?_, ?_⟩
  · exact (claim_C4_avg_pool_divisor pdAvg id pwI wE1 wB (0, 0, 0, 0) 0 rfl hI).1
  · rw [poolFwdVal_avg_def pdAvg id pwI (0, 0, 0, 0) 0 rfl]
    have hv : poolWindowVals pdAvg pwI (0, 0, 0, 0) 0 = [3, 5] := by decide
    rw [hv]
    norm_num [listMean]

/-- C5: for every window position in max pooling the reference forward
output is the maximum over the window taps, and the backward pass adds the
full upstream gradient to exactly one position, the tap at the argmax list
index, ties broken in favour of the first-encountered tap in the fixed
enumeration order (channel-window, then depth, row, column, the order of the
pixel_indices list). -/
theorem claim_C5_max_pool_argmax (pd : PoolDesc) (sq : ℚ → ℚ) (I : ℕ → ℕ → ℚ)
    (E : ℕ → ℕ → ℕ → ℕ → ℕ → ℚ) (B : ℕ → ℕ → ℚ) (w : ℕ × ℕ × ℕ × ℕ) (n : ℕ)
    (hop : pd.op = PoolOp.pmax)
    (hne : poolWindowVals pd I w n ≠ []) :
    poolFwdVal pd sq I w n = listMax (poolWindowVals pd I w n) ∧
    (∀ x ∈ poolWindowVals pd I w n, x ≤ poolFwdVal pd sq I w n) ∧
    poolFwdVal pd sq I w n ∈ poolWindowVals pd I w n ∧
    (∀ i, poolBpropWindow pd I E B w i n =
      if i = (poolPixelIndices pd (poolKj pd w.1) (poolMt pd w.2.1)
          (poolPr pd w.2.2.1) (poolQs pd w.2.2.2)).getD
            (listArgmax (poolWindowVals pd I w n)) 0 then
        B i n + E w.1 w.2.1 w.2.2.1 w.2.2.2 n
      else B i n) ∧
    listArgmax (poolWindowVals pd I w n) < (poolWindowVals pd I w n).length ∧
    (poolWindowVals pd I w n).getD (listArgmax (poolWindowVals pd I w n)) 0 =
      listMax (poolWindowVals pd I w n) ∧
    (∀ b, b < listArgmax (poolWindowVals pd I w n) →
      (poolWindowVals pd I w n).getD b 0 < listMax (poolWindowVals pd I w n)) := by
  refine ⟨poolFwdVal_max_def pd sq I w n hop, ?_, ?_,
    fun i => poolBpropWindow_max_def pd I E B w i n hop,
    listArgmax_lt _ hne, getD_listArgmax _ hne,
    fun b hb => listArgmax_first _ hne b hb⟩
  · intro x hx
    rw [poolFwdVal_max_def pd sq I w n hop]
    exact le_listMax _ x hx
  · rw [poolFwdVal_max_def pd sq I w n hop]
    exact listMax_mem _ hne

/-- C5 witness: the spec scenario: channel window 2 over channel values 3
and 5, output 5, unit upstream gradient scattered to channel index 1 and
nothing to channel index 0. -/
theorem claim_C5_witness :
    (pdMax.op = PoolOp.pmax) ∧
    (poolWindowVals pdMax pwI (0, 0, 0, 0) 0 ≠ []) ∧
    poolFwdVal pdMax id pwI (0, 0, 0, 0) 0 =
      listMax (poolWindowVals pdMax pwI (0, 0, 0, 0) 0) ∧
    poolFwdVal pdMax id pwI (0, 0, 0, 0) 0 = 5 ∧
    poolBpropWindow pdMax pwI wE1 wB (0, 0, 0, 0) 1 0 = 1 ∧
    poolBpropWindow pdMax pwI wE1 wB (0, 0, 0, 0) 0 0 = 0 := by
  have hne : poolWindowVals pdMax pwI (0, 0, 0, 0) 0 ≠ [] := by decide
  have hv : poolWindowVals pdMax pwI (0, 0, 0, 0) 0 = [3, 5] := by decide
  have hmax : listMax (poolWindowVals pdMax pwI (0, 0, 0, 0) 0) = 5 := by
    rw [hv]
    show max (3 : ℚ) 5 = 5
    rw [max_eq_right (by norm_num)]
  have htgt : (poolPixelIndices pdMax (poolKj pdMax 0) (poolMt pdMax 0)
      (poolPr pdMax 0) (poolQs pdMax 0)).getD
        (listArgmax (poolWindowVals pdMax pwI (0, 0, 0, 0) 0)) 0 = 1 := by
    have harg : listArgmax (poolWindowVals pdMax pwI (0, 0, 0, 0) 0) = 1 := by
      unfold listArgmax
      rw [hv, hmax.symm, hv] at *
      rw [show listMax [(3 : ℚ), 5] = 5 from by
        show max (3 : ℚ) 5 = 5
        rw [max_eq_right (by norm_num)]]
      decide
    rw [harg]
    decide
  refine ⟨rfl, hne, ?_, ?_, ?_, ?_⟩
  · exact (claim_C5_max_pool_argmax pdMax id pwI wE1 wB (0, 0, 0, 0) 0 rfl hne).1
  · rw [poolFwdVal_max_def pdMax id pwI (0, 0, 0, 0) 0 rfl]
    exact hmax
  · rw [poolBpropWindow_max_def pdMax pwI wE1 wB (0, 0, 0, 0) 1 0 rfl, htgt,
      if_pos rfl]
    show (0 : ℚ) + 1 = 1
    norm_num
  · rw [poolBpropWindow_max_def pdMax pwI wE1 wB (0, 0, 0, 0) 0 0 rfl, htgt,
      if_neg (by decide)]
    rfl

/-- C7: for every pooling configuration with op max or avg, running the
reference iteration five times on the same buffers yields exactly the state
a single run yields: the iteration body re-fills the accumulation buffer
with zero before re-scattering and is idempotent. -/
theorem claim_C7_pool_repeat_idempotent (pd : PoolDesc) (sq : ℚ → ℚ)
    (I : ℕ → ℕ → ℚ) (E : ℕ → ℕ → ℕ → ℕ → ℕ → ℚ) (st : PoolState)
    (hop : pd.op = PoolOp.pmax ∨ pd.op = PoolOp.pavg) :
    (poolStep pd sq I E)^[5] st = poolStep pd sq I E st := by
  rw [show (5 : ℕ) = 4 + 1 from rfl, Function.iterate_succ_apply]
  exact Function.iterate_fixed (poolStep_idem pd sq I E st) 4

/-- C7 witness: the repeat idempotence instantiated at the concrete max
configuration and the zero state. -/
theorem claim_C7_witness :
    (pdMax.op = PoolOp.pmax ∨ pdMax.op = PoolOp.pavg) ∧
    (poolStep pdMax id pwI wE1)^[5] stZero = poolStep pdMax id pwI wE1 stZero :=
  ⟨Or.inl rfl,
    claim_C7_pool_repeat_idempotent pdMax id pwI wE1 stZero (Or.inl rfl)⟩

/-- C8: in average pooling the index list of every window has the positive
constant length J T R S, so no window divides by zero, and a window lying
fully outside the input bounds yields output exactly 0. -/
theorem claim_C8_avg_pool_boundary (pd : PoolDesc) (sq : ℚ → ℚ)
    (I : ℕ → ℕ → ℚ) (w : ℕ × ℕ × ℕ × ℕ) (n : ℕ)
    (hop : pd.op = PoolOp.pavg)
    (hJ : 0 < pd.J) (hT : 0 < pd.T) (hR : 0 < pd.R) (hS : 0 < pd.S)
    (hI : ∀ n', I (pd.C * (pd.D * pd.H * pd.W)) n' = 0) :
    (∀ kj mt pr qs : ℤ,
      (poolPixelIndices pd kj mt pr qs).length = pd.J * pd.T * pd.R * pd.S) ∧
    (0 : ℚ) < ((pd.J * pd.T * pd.R * pd.S : ℕ) : ℚ) ∧
    ((∀ j t r s, j < pd.J → t < pd.T → r < pd.R → s < pd.S →
        ¬ poolInB pd (poolKj pd w.1) (poolMt pd w.2.1) (poolPr pd w.2.2.1)
          (poolQs pd w.2.2.2) j t r s) →
      poolFwdVal pd sq I w n = 0) := by
  refine ⟨?_, ?_, ?_⟩
  · intro kj mt pr qs
    rw [poolPixelIndices_length]
    ring
  · exact Nat.cast_pos.mpr (Nat.mul_pos (Nat.mul_pos (Nat.mul_pos hJ hT) hR) hS)
  · intro hoob
    exact poolFwdVal_avg_oob pd sq I w n hop hI hoob

/-- C8 witness: a width-padded 1x1x1 avg configuration whose window at q = 0
lies fully out of bounds and yields 0 without dividing by zero. -/
theorem claim_C8_witness :
    (pdOob.op = PoolOp.pavg) ∧ (0 < pdOob.J) ∧
    (0 : ℚ) < ((pdOob.J * pdOob.T * pdOob.R * pdOob.S : ℕ) : ℚ) ∧
    poolFwdVal pdOob id pwI0 (0, 0, 0, 0) 0 = 0 := by
  have hI : ∀ n', pwI0 (pdOob.C * (pdOob.D * pdOob.H * pdOob.W)) n' = 0 :=
    fun _ => rfl
  have hoob : ∀ j t r s, j < pdOob.J → t < pdOob.T → r < pdOob.R → s < pdOob.S →
      ¬ poolInB pdOob (poolKj pdOob 0) (poolMt pdOob 0) (poolPr pdOob 0)
        (poolQs pdOob 0) j t r s := by
    intro j t r s hj ht hr hs
    rw [show pdOob.J = 1 from rfl] at hj
    rw [show pdOob.T = 1 from rfl] at ht
    rw [show pdOob.R = 1 from rfl] at hr
    rw [show pdOob.S = 1 from rfl] at hs
    have hj0 : j = 0 := by omega
    have ht0 : t = 0 := by omega
    have hr0 : r = 0 := by omega
    have hs0 : s = 0 := by omega
    subst hj0
    subst ht0
    subst hr0
    subst hs0
    decide
  have h := claim_C8_avg_pool_boundary pdOob id pwI0 (0, 0, 0, 0) 0 rfl
    (by decide) (by decide) (by decide) (by decide) hI
  exact ⟨rfl, by decide, h.2.1, h.2.2 hoob⟩

end Neon
